import Mathlib

/-!
Verification of the SSH-config block parser and mutator of gh-context
(`internal/ssh`, in the repository's `auth.go` source file).

The embedding models lines as Lean `String`s (lists of characters).  The Go
regular expressions

  hostPattern         = `(?i)^\s*Host\s+(.+?)\s*$`
  identityFilePattern = `(?i)^\s*(#\s*)?(IdentityFile)\s+(.+?)\s*$`

are embedded by executable matchers whose semantics follow RE2 backtracking
semantics exactly on the character level: `\s` is the RE2 class
`[\t\n\f\r ]`, `.` matches every character other than `'\n'`, `$` anchors at
the end of the line, the keyword is matched case-insensitively (ASCII
folding; exotic Unicode foldings such as the Kelvin sign are outside the
model), and the captured group is postprocessed with `strings.TrimSpace`
(its ASCII fragment; Unicode spaces beyond ASCII are outside the model).
Lines produced by `bufio.Scanner` never contain `'\n'`.

Paths are normalized by `normalizePath`, which embeds `filepath.Clean` for
Unix separators together with the `~/` home expansion; the home directory
(`os.UserHomeDir`) is passed explicitly as an `Option String` parameter
(`none` models a failing lookup).

Go methods that mutate the receiver in place (`ActivateKey`,
`AddIdentityFile`) are embedded as functions returning the updated
`ConfigFile` together with an `Option String` error; on the error paths the
returned configuration is the untouched input, mirroring the fact that the
Go code returns before modifying any line.
-/

set_option maxHeartbeats 1000000

namespace GhContext

/-- Characters of the RE2 character class `\s`, namely `[\t\n\f\r ]`. -/
def reSpace (c : Char) : Bool :=
  c = ' ' || c = '\t' || c = '\n' || c = '\r' || c = '\x0c'

/-- ASCII whitespace as stripped by Go's `strings.TrimSpace`
(the ASCII fragment of `unicode.IsSpace`): `\s` together with `'\v'`. -/
def goSpace (c : Char) : Bool :=
  reSpace c || c = '\x0b'

/-- Drop the longest suffix of characters satisfying `p`. -/
def dropTrail (p : Char → Bool) (l : List Char) : List Char :=
  (l.reverse.dropWhile p).reverse

/-- Trim characters satisfying `p` from both ends. -/
def trimBoth (p : Char → Bool) (l : List Char) : List Char :=
  dropTrail p (l.dropWhile p)

/-- Case-insensitive character comparison (ASCII folding via `Char.toLower`). -/
def lowerEq (a b : Char) : Bool :=
  a.toLower = b.toLower

/-- Match a literal keyword case-insensitively at the head of the input,
returning the remainder on success. -/
def stripKeyword : List Char → List Char → Option (List Char)
  | [], rest => some rest
  | _ :: _, [] => none
  | k :: ks, c :: rest => if lowerEq k c then stripKeyword ks rest else none

/-- Semantics of the regex tail `\s+(.+?)\s*$` applied to the text after the
keyword, combined with the `strings.TrimSpace` applied by the Go code to the
captured group.  Backtracking analysis of the Go pattern: the tail matches
iff the remainder decomposes as `w ++ c ++ z` with `w` a nonempty run of
`\s` characters, `c` nonempty and free of `'\n'`, and `z` a run of `\s`
characters; the preferred capture `c` (greedy `\s+`, lazy `.+?`) trims to
`trimBoth goSpace` of the remainder, and to `""` when the remainder is all
whitespace. -/
def matchTail (rest : List Char) : Option String :=
  let r := rest.dropWhile reSpace
  if r.isEmpty then
    if (rest.drop 1).any (fun c => c != '\n') then some "" else none
  else
    if (rest.takeWhile reSpace).isEmpty then none
    else
      let cap := dropTrail reSpace r
      if cap.any (fun c => c = '\n') then none
      else some ⟨trimBoth goSpace cap⟩

/-- Embeds matching a line against `hostPattern` followed by the
`strings.TrimSpace(match[1])` performed by `parseBlocks`: returns the
declared host pattern text when the line is a `Host` declaration. -/
def hostMatch (line : String) : Option String :=
  match stripKeyword ['h', 'o', 's', 't'] (line.data.dropWhile reSpace) with
  | some rest => matchTail rest
  | none => none

/-- The keyword of `identityFilePattern`, lowered for case-insensitive
matching. -/
def identityKeyword : List Char :=
  ['i', 'd', 'e', 'n', 't', 'i', 't', 'y', 'f', 'i', 'l', 'e']

/-- The optional comment group `(#\s*)?`: it matches exactly when the first
character after the leading whitespace is `#`, consuming the `#` and the
whitespace after it. -/
def commentSplit : List Char → Bool × List Char
  | '#' :: r => (true, r.dropWhile reSpace)
  | l => (false, l)

/-- Embeds matching a line against `identityFilePattern` together with the
`strings.TrimSpace(match[3])` performed by every caller: returns
`(isCommented, trimmedPath)` when the line is an `IdentityFile` declaration
(commented or not). -/
def identityMatch (line : String) : Option (Bool × String) :=
  let st := commentSplit (line.data.dropWhile reSpace)
  match stripKeyword identityKeyword st.2 with
  | some rest => (matchTail rest).map (fun p => (st.1, p))
  | none => none

/-- Embeds `IdentityFileLine`: one `IdentityFile` declaration inside a block. -/
structure IdentityFileLine where
  lineIndex : Nat
  path : String
  isCommented : Bool
  fullLine : String
deriving Repr, DecidableEq

/-- Embeds `HostBlock`: a `Host` block of the SSH config. -/
structure HostBlock where
  startLine : Nat
  endLine : Nat
  hostname : String
  lines : List String
  identityFiles : List IdentityFileLine
deriving Repr, DecidableEq

/-- Embeds `ConfigFile`: a parsed SSH config file. -/
structure ConfigFile where
  path : String
  lines : List String
  blocks : List HostBlock
deriving Repr, DecidableEq

/-- The loop body of `(*ConfigFile).parseBlocks`, with the line index `i` and
the currently open block threaded explicitly.  On a `Host` line the open
block is closed with `EndLine = i` and a new block is opened; any other line
is appended to the open block, recording an `IdentityFile` entry when it
matches; at the end of input the open block is closed with
`EndLine = len(lines)`. -/
def goBlocks : List String → Nat → Option HostBlock → List HostBlock
  | [], _, none => []
  | [], i, some b => [{ b with endLine := i }]
  | l :: rest, i, cur =>
    match hostMatch l with
    | some name =>
      let nb : HostBlock :=
        { startLine := i, endLine := 0, hostname := name, lines := [l], identityFiles := [] }
      match cur with
      | none => goBlocks rest (i + 1) (some nb)
      | some b => { b with endLine := i } :: goBlocks rest (i + 1) (some nb)
    | none =>
      match cur with
      | none => goBlocks rest (i + 1) none
      | some b =>
        let b1 := { b with lines := b.lines ++ [l] }
        let b2 :=
          match identityMatch l with
          | some cp =>
            { b1 with identityFiles := b1.identityFiles ++
                [{ lineIndex := b1.lines.length - 1, path := cp.2,
                   isCommented := cp.1, fullLine := l }] }
          | none => b1
        goBlocks rest (i + 1) (some b2)

/-- Embeds `(*ConfigFile).parseBlocks` as a function from the line sequence
to the derived block sequence. -/
def parseBlocks (lines : List String) : List HostBlock :=
  goBlocks lines 0 none

/-- A `ConfigFile` whose stored block sequence is exactly what the block
parser produces from its current line sequence (the invariant every
documented operation maintains). -/
def WF (c : ConfigFile) : Prop :=
  c.blocks = parseBlocks c.lines

/-- Build a parsed `ConfigFile` from a line sequence. -/
def mkConfig (ls : List String) : ConfigFile :=
  { path := "", lines := ls, blocks := parseBlocks ls }

/-- Embeds `(*ConfigFile).FindHostBlock`: first block whose declared pattern
text equals `hostname` exactly (no SSH glob semantics). -/
def FindHostBlock (c : ConfigFile) (hostname : String) : Option HostBlock :=
  c.blocks.find? (fun b => b.hostname == hostname)

/-- Embeds `(*ConfigFile).GetActiveIdentityFile`: the path of the first
uncommented entry of the block for `hostname`, or `""`. -/
def GetActiveIdentityFile (c : ConfigFile) (hostname : String) : String :=
  match FindHostBlock c hostname with
  | none => ""
  | some block =>
    match block.identityFiles.find? (fun ifl => !ifl.isCommented) with
    | some ifl => ifl.path
    | none => ""

/-- Split a character list at every occurrence of `sep`, keeping empty
pieces. -/
def splitOnChar (sep : Char) : List Char → List (List Char)
  | [] => [[]]
  | c :: rest =>
    if c = sep then [] :: splitOnChar sep rest
    else
      match splitOnChar sep rest with
      | t :: ts => (c :: t) :: ts
      | [] => [[c]]

/-- Join character lists with a separator character. -/
def joinChar (sep : Char) : List (List Char) → List Char
  | [] => []
  | [l] => l
  | l :: ls => l ++ sep :: joinChar sep ls

/-- One step of the lexical path-cleaning loop of `filepath.Clean` (Unix
separators), acting on the list of already-emitted path elements. -/
def cleanStep (rooted : Bool) (acc : List (List Char)) (c : List Char) : List (List Char) :=
  if c = ['.', '.'] then
    if rooted then acc.dropLast
    else
      match acc.getLast? with
      | some last => if last = ['.', '.'] then acc ++ [c] else acc.dropLast
      | none => [c]
  else acc ++ [c]

/-- Embeds `filepath.Clean` for Unix separators: collapse redundant
separators, drop `.` elements, resolve `..` lexically, return `"."` for an
empty result. -/
def clean (p : String) : String :=
  match p.data with
  | [] => "."
  | c :: rest =>
    let rooted := c = '/'
    let comps := (splitOnChar '/' (c :: rest)).filter (fun e => !(e = []) && !(e = ['.']))
    let out := comps.foldl (cleanStep rooted) []
    if rooted then ⟨'/' :: joinChar '/' out⟩
    else if out = [] then "." else ⟨joinChar '/' out⟩

/-- Embeds `filepath.Join` on two elements: empty elements are skipped and
the slash-joined result is cleaned; the all-empty join is `""`. -/
def joinPath (a b : String) : String :=
  if a = "" then (if b = "" then "" else clean b)
  else clean ⟨a.data ++ '/' :: b.data⟩

/-- Embeds `normalizePath`: expand a leading `~/` using the home directory
when the home lookup succeeds, then `filepath.Clean` the result. -/
def normalizePath (home : Option String) (p : String) : String :=
  let p2 : List Char :=
    match p.data, home with
    | '~' :: '/' :: rest, some h => (joinPath h ⟨rest⟩).data
    | _, _ => p.data
  clean ⟨p2⟩

/-- Leading run of space and tab characters of a line (the indentation
preserved by the rewriting helpers). -/
def indentOf (line : String) : List Char :=
  line.data.takeWhile (fun ch => ch = ' ' || ch = '\t')

/-- Embeds `uncommentIdentityFile`: re-match the line against the
`IdentityFile` pattern and rewrite it to the canonical uncommented form,
preserving the original leading indentation and the trimmed path text;
lines that do not match are returned unchanged. -/
def uncommentIdentityFile (line : String) : String :=
  match identityMatch line with
  | none => line
  | some cp => ⟨indentOf line⟩ ++ "IdentityFile " ++ cp.2

/-- Embeds `commentIdentityFile`: lines that do not match are returned
unchanged, already-commented lines are returned unchanged, and uncommented
entries are rewritten to the canonical commented form under the original
indentation. -/
def commentIdentityFile (line : String) : String :=
  match identityMatch line with
  | none => line
  | some cp =>
    if cp.1 then line
    else ⟨indentOf line⟩ ++ "# IdentityFile " ++ cp.2

/-- The line-rewriting loop of `(*ConfigFile).ActivateKey`: uncomment every
entry line whose normalized path equals the normalized key path and comment
out every other entry line.  The loop reads `c.Lines[globalLineIdx]` from
the partially updated sequence exactly as the Go loop does. -/
def activateRewrites (home : Option String) (normalizedKeyPath : String)
    (block : HostBlock) (lines : List String) : List String :=
  block.identityFiles.foldl
    (fun ls ifl =>
      let globalLineIdx := block.startLine + ifl.lineIndex
      let originalLine := ls.getD globalLineIdx ""
      ls.set globalLineIdx
        (if normalizePath home ifl.path == normalizedKeyPath then
          uncommentIdentityFile originalLine
        else
          commentIdentityFile originalLine))
    lines

/-- Embeds `(*ConfigFile).ActivateKey`.  The returned pair is the updated
configuration together with `none` on success or `some msg` on failure; on
failure the input configuration is returned untouched, mirroring the Go
code's early returns. -/
def ActivateKey (home : Option String) (c : ConfigFile) (hostname keyPath : String) :
    ConfigFile × Option String :=
  match FindHostBlock c hostname with
  | none =>
    (c, some ("no Host block found for '" ++ hostname ++ "' in SSH config"))
  | some block =>
    let normalizedKeyPath := normalizePath home keyPath
    if block.identityFiles.any (fun ifl => normalizePath home ifl.path == normalizedKeyPath) then
      let newLines := activateRewrites home normalizedKeyPath block c.lines
      ({ c with lines := newLines, blocks := parseBlocks newLines }, none)
    else
      (c, some ("IdentityFile '" ++ keyPath ++ "' not found in Host " ++ hostname ++
        " block\nAdd it to your SSH config first"))

/-- The loop of `detectIndent` over the block lines after the `Host` line:
return the leading space/tab run of the first line that is nonempty after
`strings.TrimLeft(line, " \t")` and differs from its trimmed form. -/
def detectIndentGo : List String → String
  | [] => "    "
  | l :: rest =>
    let trimmed : String := ⟨l.data.dropWhile (fun ch => ch = ' ' || ch = '\t')⟩
    if trimmed ≠ "" ∧ trimmed ≠ l then ⟨indentOf l⟩
    else detectIndentGo rest

/-- Embeds `detectIndent`: scan the block's lines, skipping the `Host` line,
defaulting to four spaces. -/
def detectIndent (lines : List String) : String :=
  detectIndentGo lines.tail

/-- Embeds `(*ConfigFile).AddIdentityFile`.  Mirrors the Go control flow:
missing block is an error, an existing entry with the same normalized path
is a success without modification, otherwise the new line is inserted after
the last entry (or after the `Host` line) and the blocks are re-derived. -/
def AddIdentityFile (home : Option String) (c : ConfigFile)
    (hostname keyPath : String) (active : Bool) : ConfigFile × Option String :=
  match FindHostBlock c hostname with
  | none =>
    (c, some ("no Host block found for '" ++ hostname ++ "' in SSH config"))
  | some block =>
    let normalizedKeyPath := normalizePath home keyPath
    if block.identityFiles.any (fun ifl => normalizePath home ifl.path == normalizedKeyPath) then
      (c, none)
    else
      let indent := detectIndent block.lines
      let newLine :=
        if active then indent ++ "IdentityFile " ++ keyPath
        else indent ++ "# IdentityFile " ++ keyPath
      let insertIdx :=
        match block.identityFiles.getLast? with
        | some lastIF => block.startLine + lastIF.lineIndex + 1
        | none => block.startLine + 1
      let newLines := c.lines.take insertIdx ++ newLine :: c.lines.drop insertIdx
      ({ c with lines := newLines, blocks := parseBlocks newLines }, none)

/-- Embeds the content computation of `(*ConfigFile).Save`: join the line
sequence with newline separators and append one `'\n'` when the sequence is
nonempty and the joined content does not already end in `'\n'`. -/
def saveContent (lines : List String) : String :=
  let content := joinChar '\n' (lines.map String.data)
  if lines.length > 0 && !(content.getLast? == some '\n') then ⟨content ++ ['\n']⟩
  else ⟨content⟩

/-- Drop a single trailing carriage return, as `bufio.ScanLines` does to
each scanned line. -/
def dropCR (l : List Char) : List Char :=
  if l.getLast? = some '\r' then l.dropLast else l

/-- Embeds reading a file's content into lines via `bufio.Scanner` with
`ScanLines`: split at `'\n'`, drop the empty piece after a terminating
newline, and strip one trailing `'\r'` from each line. -/
def scanLines (s : String) : List String :=
  let ps := splitOnChar '\n' s.data
  let ps := if ps.getLast? = some [] then ps.dropLast else ps
  ps.map (fun l => ⟨dropCR l⟩)

/-- Embeds `ParseConfig` applied to the content of an existing file. -/
def parseConfig (path content : String) : ConfigFile :=
  let lines := scanLines content
  { path := path, lines := lines, blocks := parseBlocks lines }

/-! ## Step lemmas for the two mutating operations -/

theorem ActivateKey_eq_of_none {home : Option String} {c : ConfigFile} {hn keyPath : String}
    (h : FindHostBlock c hn = none) :
    ActivateKey home c hn keyPath =
      (c, some ("no Host block found for '" ++ hn ++ "' in SSH config")) := by
  unfold ActivateKey
  rw [h]

theorem ActivateKey_eq_of_notfound {home : Option String} {c : ConfigFile} {hn keyPath : String}
    {b : HostBlock} (h : FindHostBlock c hn = some b)
    (hany : b.identityFiles.any
      (fun ifl => normalizePath home ifl.path == normalizePath home keyPath) = false) :
    ActivateKey home c hn keyPath =
      (c, some ("IdentityFile '" ++ keyPath ++ "' not found in Host " ++ hn ++
        " block\nAdd it to your SSH config first")) := by
  unfold ActivateKey
  rw [h]
  simp only [hany, Bool.false_eq_true, if_false]

theorem ActivateKey_eq_of_found {home : Option String} {c : ConfigFile} {hn keyPath : String}
    {b : HostBlock} (h : FindHostBlock c hn = some b)
    (hany : b.identityFiles.any
      (fun ifl => normalizePath home ifl.path == normalizePath home keyPath) = true) :
    ActivateKey home c hn keyPath =
      ({ c with
          lines := activateRewrites home (normalizePath home keyPath) b c.lines
          blocks := parseBlocks (activateRewrites home (normalizePath home keyPath) b c.lines) },
        none) := by
  unfold ActivateKey
  rw [h]
  simp only [hany, if_true]

theorem AddIdentityFile_eq_of_none {home : Option String} {c : ConfigFile}
    {hn keyPath : String} {active : Bool} (h : FindHostBlock c hn = none) :
    AddIdentityFile home c hn keyPath active =
      (c, some ("no Host block found for '" ++ hn ++ "' in SSH config")) := by
  unfold AddIdentityFile
  rw [h]

theorem AddIdentityFile_eq_of_exists {home : Option String} {c : ConfigFile}
    {hn keyPath : String} {active : Bool} {b : HostBlock} (h : FindHostBlock c hn = some b)
    (hany : b.identityFiles.any
      (fun ifl => normalizePath home ifl.path == normalizePath home keyPath) = true) :
    AddIdentityFile home c hn keyPath active = (c, none) := by
  unfold AddIdentityFile
  rw [h]
  simp only [hany, if_true]

/-- The inserted line and insertion index of `AddIdentityFile`, named for the
insertion-case step lemma. -/
def addNewLine (keyPath : String) (active : Bool) (b : HostBlock) : String :=
  if active then detectIndent b.lines ++ "IdentityFile " ++ keyPath
  else detectIndent b.lines ++ "# IdentityFile " ++ keyPath

/-- The insertion index of `AddIdentityFile`: after the last entry line, or
after the `Host` line when the block has no entries. -/
def addInsertIdx (b : HostBlock) : Nat :=
  match b.identityFiles.getLast? with
  | some lastIF => b.startLine + lastIF.lineIndex + 1
  | none => b.startLine + 1

theorem AddIdentityFile_eq_of_insert {home : Option String} {c : ConfigFile}
    {hn keyPath : String} {active : Bool} {b : HostBlock} (h : FindHostBlock c hn = some b)
    (hany : b.identityFiles.any
      (fun ifl => normalizePath home ifl.path == normalizePath home keyPath) = false) :
    AddIdentityFile home c hn keyPath active =
      ({ c with
          lines := c.lines.take (addInsertIdx b) ++
            addNewLine keyPath active b :: c.lines.drop (addInsertIdx b)
          blocks := parseBlocks (c.lines.take (addInsertIdx b) ++
            addNewLine keyPath active b :: c.lines.drop (addInsertIdx b)) },
        none) := by
  unfold AddIdentityFile
  rw [h]
  simp only [hany, Bool.false_eq_true, if_false]
  rfl

/-! ## General list helpers -/

/-- The element returned by `List.find?` is the first satisfying one. -/
theorem find?_first {α : Type} (p : α → Bool) :
    ∀ (l : List α) (b : α), l.find? p = some b →
      p b = true ∧ ∃ i : Nat, l[i]? = some b ∧
        ∀ j, j < i → ∀ b', l[j]? = some b' → p b' = false := by
  intro l
  induction l with
  | nil => intro b h; simp [List.find?] at h
  | cons a t ih =>
    intro b h
    by_cases hpa : p a = true
    · rw [List.find?_cons_of_pos _ hpa] at h
      cases h
      exact ⟨hpa, 0, by simp, fun j hj => absurd hj (by omega)⟩
    · rw [List.find?_cons_of_neg _ (by simpa using hpa)] at h
      obtain ⟨hpb, i, hi, hfirst⟩ := ih b h
      refine ⟨hpb, i + 1, by simpa using hi, ?_⟩
      intro j hj b' hb'
      cases j with
      | zero =>
        simp only [List.getElem?_cons_zero, Option.some.injEq] at hb'
        subst hb'
        simpa using hpa
      | succ k => exact hfirst k (by omega) b' (by simpa using hb')

/-! ## Claim C2 -/

/-- C2: `ActivateKey(alias, keyPath)` returns its NotFound error exactly
when no block's declared pattern equals the alias, or when no entry of the
block resolved for the alias has a normalized path equal to the normalized
key path; and whenever it returns an error, the configuration (its line
sequence and block structure) is returned completely unchanged — the error
checks precede any line rewrite. -/
theorem activateKey_error_iff_and_unchanged (home : Option String) (c : ConfigFile)
    (hn keyPath : String) :
    ((ActivateKey home c hn keyPath).2.isSome = true ↔
      ((∀ b ∈ c.blocks, b.hostname ≠ hn) ∨
       (∃ b, FindHostBlock c hn = some b ∧
         ∀ ifl ∈ b.identityFiles,
           normalizePath home ifl.path ≠ normalizePath home keyPath))) ∧
    ((ActivateKey home c hn keyPath).2.isSome = true →
      (ActivateKey home c hn keyPath).1 = c) := by
  cases hfb : FindHostBlock c hn with
  | none =>
    rw [ActivateKey_eq_of_none hfb]
    refine ⟨?_, fun _ => rfl⟩
    simp only [Option.isSome_some, true_iff]
    left
    intro b hb hbn
    have hnone : c.blocks.find? (fun b => b.hostname == hn) = none := hfb
    rw [List.find?_eq_none] at hnone
    exact hnone b hb (by simp [hbn])
  | some b =>
    have hmem : b ∈ c.blocks := List.mem_of_find?_eq_some hfb
    have hbn : b.hostname = hn := by
      have := List.find?_some hfb
      simpa using this
    cases hany : b.identityFiles.any
        (fun ifl => normalizePath home ifl.path == normalizePath home keyPath) with
    | true =>
      rw [ActivateKey_eq_of_found hfb hany]
      refine ⟨?_, by intro h; simp at h⟩
      simp only [Option.isSome_none, Bool.false_eq_true, false_iff]
      intro hor
      rcases hor with hall | ⟨b', hb', hno⟩
      · exact hall b hmem hbn
      · cases hb'
        rcases List.any_eq_true.mp hany with ⟨ifl, hifl, hmatch⟩
        exact hno ifl hifl (by simpa using hmatch)
    | false =>
      rw [ActivateKey_eq_of_notfound hfb hany]
      refine ⟨?_, fun _ => rfl⟩
      simp only [Option.isSome_some, true_iff]
      right
      refine ⟨b, rfl, ?_⟩
      intro ifl hifl
      have := List.any_eq_false.mp hany ifl hifl
      simpa using this

/-! ## Claim C8 -/

/-- C8: `FindHostBlock(alias)` returns the first block in file order whose
declared pattern text is exactly string-equal to the alias, and `none` when
no block's pattern is literally equal; no SSH glob matching is applied, so a
block declared `Host *.corp` is found by the literal lookup `*.corp` and
never by `foo.corp`. -/
theorem findHostBlock_literal_first_match (c : ConfigFile) (hn : String) :
    (FindHostBlock c hn = none ↔ ∀ b ∈ c.blocks, b.hostname ≠ hn) ∧
    (∀ b, FindHostBlock c hn = some b →
      b.hostname = hn ∧
      ∃ i : Nat, c.blocks[i]? = some b ∧
        ∀ j, j < i → ∀ b', c.blocks[j]? = some b' → b'.hostname ≠ hn) ∧
    (FindHostBlock (mkConfig ["Host *.corp"]) "foo.corp" = none ∧
      (FindHostBlock (mkConfig ["Host *.corp"]) "*.corp").map HostBlock.hostname =
        some "*.corp") := by
  refine ⟨?_, ?_, by decide⟩
  · unfold FindHostBlock
    rw [List.find?_eq_none]
    constructor
    · intro h b hb hbn
      exact h b hb (by simp [hbn])
    · intro h b hb
      simpa using h b hb
  · intro b hfb
    obtain ⟨hpb, i, hi, hfirst⟩ := find?_first _ _ _ hfb
    refine ⟨by simpa using hpb, i, hi, ?_⟩
    intro j hj b' hb' hbn'
    have := hfirst j hj b' hb'
    rw [hbn'] at this
    simp at this

/-! ## Claim C7 -/

/-- C7 (counterexample): the content computed by `Save` does not always end
with exactly one trailing newline.  For the line sequence
`["a", "", ""]` — as parsed from a file ending in several blank lines — the
joined content already ends in a newline, so nothing is appended and the
output ends with two trailing newlines. -/
theorem saveContent_two_trailing_newlines :
    saveContent ["a", "", ""] = "a\n\n" ∧
    ¬((saveContent ["a", "", ""]).data.getLast? = some '\n' ∧
      (saveContent ["a", "", ""]).data.dropLast.getLast? ≠ some '\n') := by
  refine ⟨rfl, ?_⟩
  intro h
  exact h.2 (by decide)

/-- C7 (amended): the content `Save` writes is the line sequence joined with
newline separators, with a single newline appended exactly when the sequence
is nonempty and the joined text does not already end in a newline; hence the
output of a nonempty sequence always ends in at least one newline, and the
empty sequence produces empty content. -/
theorem saveContent_join_and_trailing_newline (ls : List String) :
    (ls = [] → saveContent ls = "") ∧
    (ls ≠ [] →
      (saveContent ls).data.getLast? = some '\n' ∧
      ((saveContent ls).data = joinChar '\n' (ls.map String.data) ∨
       (saveContent ls).data = joinChar '\n' (ls.map String.data) ++ ['\n'])) := by
  constructor
  · rintro rfl
    rfl
  · intro hne
    by_cases hlast : (joinChar '\n' (ls.map String.data)).getLast? = some '\n'
    · have heq : saveContent ls = ⟨joinChar '\n' (ls.map String.data)⟩ := by
        unfold saveContent
        simp [hlast]
      rw [heq]
      exact ⟨hlast, Or.inl rfl⟩
    · have hcond : (ls.length > 0 &&
          !((joinChar '\n' (ls.map String.data)).getLast? == some '\n')) = true := by
        apply Bool.and_eq_true_iff.mpr
        constructor
        · simpa using List.length_pos_of_ne_nil hne
        · simpa using hlast
      have heq : saveContent ls = ⟨joinChar '\n' (ls.map String.data) ++ ['\n']⟩ := by
        unfold saveContent
        simp only [hcond, if_true]
      rw [heq]
      refine ⟨by simp, Or.inr rfl⟩

/-- Witness for the amended C7 theorem at the concrete input `["a"]`. -/
theorem saveContent_join_and_trailing_newline_w :
    (saveContent ["a"]).data.getLast? = some '\n' :=
  ((saveContent_join_and_trailing_newline ["a"]).2 (by decide)).1

/-! ## Structural characterization of the block parser

The parser output is characterized by the well-formedness predicate
`ChainWF`: the blocks partition the region of the file from the first
`Host` line onward into ranges that start at a `Host` line, contain no
further `Host` line, end at the next `Host` line or end of file, and carry
the slice of lines and the entries collected from it.  `ChainWF` is proved
for `parseBlocks` and shown to have a unique solution, which is the engine
behind all frame and rewrite claims. -/

/-- Slice of the line sequence over the half-open range `[s, e)`. -/
def sliceL (lines : List String) (s e : Nat) : List String :=
  (lines.drop s).take (e - s)

/-- Entries collected from the lines of a block after its `Host` line,
`j` being the block-relative index of the first listed line. -/
def entGo : List String → Nat → List IdentityFileLine
  | [], _ => []
  | l :: rest, j =>
    match identityMatch l with
    | some cp =>
      { lineIndex := j, path := cp.2, isCommented := cp.1, fullLine := l } :: entGo rest (j + 1)
    | none => entGo rest (j + 1)

/-- Entries of a block with the given line view (the `Host` line first). -/
def entriesOf (bl : List String) : List IdentityFileLine :=
  entGo bl.tail 1

/-- No `Host` line occurs in the index range `[a, b)`. -/
def hostFree (lines : List String) (a b : Nat) : Prop :=
  ∀ j, a ≤ j → j < b → hostMatch (lines.getD j "") = none

/-- Well-formedness of a single closed block with respect to the full line
sequence. -/
structure BlockWF (lines : List String) (b : HostBlock) : Prop where
  start_lt_end : b.startLine < b.endLine
  end_le : b.endLine ≤ lines.length
  host_at_start : hostMatch (lines.getD b.startLine "") = some b.hostname
  no_host_inside : hostFree lines (b.startLine + 1) b.endLine
  end_boundary : b.endLine = lines.length ∨ (hostMatch (lines.getD b.endLine "")).isSome = true
  lines_eq : b.lines = sliceL lines b.startLine b.endLine
  entries_eq : b.identityFiles = entriesOf b.lines

/-- Well-formedness of a block list covering the file from index `i` on. -/
inductive ChainWF (lines : List String) : Nat → List HostBlock → Prop
  | nil (i : Nat) (hfree : hostFree lines i lines.length) : ChainWF lines i []
  | cons (i : Nat) (b : HostBlock) (bs : List HostBlock)
      (hle : i ≤ b.startLine) (hgap : hostFree lines i b.startLine)
      (hb : BlockWF lines b) (htail : ChainWF lines b.endLine bs) :
      ChainWF lines i (b :: bs)

/-- Invariant of the block accumulator while the parser scan is at index
`i`: the open block holds exactly the slice from its start to `i` and the
entries collected from it. -/
structure OpenInv (lines : List String) (i : Nat) (b : HostBlock) : Prop where
  start_lt : b.startLine < i
  le_len : i ≤ lines.length
  host_at_start : hostMatch (lines.getD b.startLine "") = some b.hostname
  no_host_inside : hostFree lines (b.startLine + 1) i
  lines_eq : b.lines = sliceL lines b.startLine i
  entries_eq : b.identityFiles = entriesOf b.lines

theorem getElem?_of_drop_cons {α : Type} {l rest : List α} {a : α} {i : Nat}
    (h : l.drop i = a :: rest) : l[i]? = some a := by
  have h0 : (l.drop i)[0]? = some a := by rw [h]; simp
  rwa [List.getElem?_drop, Nat.add_zero] at h0

theorem getD_of_getElem? {α : Type} {l : List α} {n : Nat} {a d : α}
    (h : l[n]? = some a) : l.getD n d = a := by
  rw [List.getD_eq_getElem?_getD, h]
  rfl

theorem drop_cons_tail {α : Type} {l rest : List α} {a : α} {i : Nat}
    (h : l.drop i = a :: rest) : l.drop (i + 1) = rest := by
  have := congrArg List.tail h
  simpa [List.tail_drop] using this

theorem lt_length_of_drop_cons {α : Type} {l rest : List α} {a : α} {i : Nat}
    (h : l.drop i = a :: rest) : i < l.length := by
  by_contra hnot
  have : l.drop i = [] := List.drop_eq_nil_of_le (by omega)
  rw [h] at this
  cases this

theorem sliceL_empty (lines : List String) (i : Nat) : sliceL lines i i = [] := by
  simp [sliceL]

theorem sliceL_snoc {lines : List String} {s i : Nat} (hsi : s ≤ i) (hil : i < lines.length) :
    sliceL lines s (i + 1) = sliceL lines s i ++ [lines.getD i ""] := by
  unfold sliceL
  have h1 : i + 1 - s = (i - s) + 1 := by omega
  rw [h1, List.take_succ]
  congr 1
  have h2 : (lines.drop s)[i - s]? = lines[i]? := by
    rw [List.getElem?_drop]
    congr 1
    omega
  have h3 : lines[i]? = some (lines.getD i "") := by
    rw [List.getElem?_eq_getElem hil]
    rw [List.getD_eq_getElem _ _ hil]
  rw [h2, h3]
  rfl

theorem sliceL_singleton {lines : List String} {rest : List String} {l : String} {i : Nat}
    (h : lines.drop i = l :: rest) : sliceL lines i (i + 1) = [l] := by
  unfold sliceL
  rw [h]
  simp

theorem entGo_append_none {l : String} (hl : identityMatch l = none) :
    ∀ (xs : List String) (j : Nat), entGo (xs ++ [l]) j = entGo xs j := by
  intro xs
  induction xs with
  | nil => intro j; simp [entGo, hl]
  | cons x xs ih =>
    intro j
    cases hx : identityMatch x with
    | none =>
      simp only [List.cons_append, entGo, hx, List.append_eq]
      exact ih (j + 1)
    | some cp =>
      simp only [List.cons_append, entGo, hx, List.append_eq]
      rw [ih (j + 1)]

theorem entGo_append_some {l : String} {cp : Bool × String} (hl : identityMatch l = some cp) :
    ∀ (xs : List String) (j : Nat), entGo (xs ++ [l]) j = entGo xs j ++
      [{ lineIndex := j + xs.length, path := cp.2, isCommented := cp.1, fullLine := l }] := by
  intro xs
  induction xs with
  | nil => intro j; simp [entGo, hl]
  | cons x xs ih =>
    intro j
    have harith : j + 1 + xs.length = j + (x :: xs).length := by
      simp only [List.length_cons]
      omega
    cases hx : identityMatch x with
    | none =>
      simp only [List.cons_append, entGo, hx, List.append_eq]
      rw [ih (j + 1), harith]
    | some cp' =>
      simp only [List.cons_append, entGo, hx, List.append_eq]
      rw [ih (j + 1), harith]

theorem entriesOf_append_none {bl : List String} {l : String}
    (hl : identityMatch l = none) : entriesOf (bl ++ [l]) = entriesOf bl := by
  cases bl with
  | nil => simp [entriesOf, entGo, hl]
  | cons x xs =>
    show entGo (xs ++ [l]) 1 = entGo xs 1
    exact entGo_append_none hl xs 1

theorem entriesOf_append_some {bl : List String} {l : String} {cp : Bool × String}
    (hl : identityMatch l = some cp) (hbl : bl ≠ []) :
    entriesOf (bl ++ [l]) = entriesOf bl ++
      [{ lineIndex := bl.length, path := cp.2, isCommented := cp.1, fullLine := l }] := by
  cases bl with
  | nil => cases hbl rfl
  | cons x xs =>
    show entGo (xs ++ [l]) 1 = entGo xs 1 ++ _
    rw [entGo_append_some hl xs 1]
    have harith : 1 + xs.length = (x :: xs).length := by
      simp only [List.length_cons]
      omega
    rw [harith]

theorem chainWF_weaken {lines : List String} {i : Nat} {bs : List HostBlock}
    (h : ChainWF lines (i + 1) bs) (hni : hostMatch (lines.getD i "") = none) :
    ChainWF lines i bs := by
  cases h with
  | nil _ hfree =>
    refine ChainWF.nil i ?_
    intro j hij hjl
    rcases Nat.eq_or_lt_of_le hij with rfl | hlt
    · exact hni
    · exact hfree j hlt hjl
  | cons _ b bs hle hgap hb htail =>
    refine ChainWF.cons i b bs (by omega) ?_ hb htail
    intro j hij hjb
    rcases Nat.eq_or_lt_of_le hij with rfl | hlt
    · exact hni
    · exact hgap j hlt hjb

/-- The central induction: the parser scan, started at index `i` on the
remaining lines with a well-formed accumulator, produces a well-formed
chain. -/
theorem goBlocks_spec (lines : List String) :
    ∀ (rest : List String) (i : Nat), rest = lines.drop i →
      ChainWF lines i (goBlocks rest i none) ∧
      (∀ b, OpenInv lines i b → ChainWF lines b.startLine (goBlocks rest i (some b))) := by
  intro rest
  induction rest with
  | nil =>
    intro i hdrop
    have hlen : lines.length ≤ i := by
      by_contra hnot
      have : lines.drop i ≠ [] := by
        apply List.ne_nil_of_length_pos
        rw [List.length_drop]
        omega
      exact this hdrop.symm
    constructor
    · exact ChainWF.nil i (fun j hij hjl => absurd hjl (by omega))
    · intro b hb
      have hi : i = lines.length := le_antisymm hb.le_len hlen
      show ChainWF lines b.startLine [{ b with endLine := i }]
      have hbwf : BlockWF lines { b with endLine := i } := {
        start_lt_end := hb.start_lt
        end_le := by rw [hi]
        host_at_start := hb.host_at_start
        no_host_inside := hb.no_host_inside
        end_boundary := Or.inl hi
        lines_eq := hb.lines_eq
        entries_eq := hb.entries_eq }
      refine ChainWF.cons b.startLine _ [] le_rfl ?_ hbwf ?_
      · show hostFree lines b.startLine b.startLine
        intro j hj hj'
        omega
      · show ChainWF lines i []
        exact ChainWF.nil i (fun j hij hjl => absurd hjl (by omega))
  | cons l rest ih =>
    intro i hdrop
    have hget : lines[i]? = some l := getElem?_of_drop_cons hdrop.symm
    have hgetD : lines.getD i "" = l := getD_of_getElem? hget
    have hil : i < lines.length := lt_length_of_drop_cons hdrop.symm
    have hdrop' : rest = lines.drop (i + 1) := (drop_cons_tail hdrop.symm).symm
    obtain ⟨ihn, iho⟩ := ih (i + 1) hdrop'
    cases hm : hostMatch l with
    | some name =>
      have hnb : OpenInv lines (i + 1)
          { startLine := i, endLine := 0, hostname := name,
            lines := [l], identityFiles := [] } := {
        start_lt := by show i < i + 1; omega
        le_len := by omega
        host_at_start := by show hostMatch (lines.getD i "") = some name; rw [hgetD]; exact hm
        no_host_inside := by
          show hostFree lines (i + 1) (i + 1)
          intro j h1 h2
          omega
        lines_eq := by
          show [l] = sliceL lines i (i + 1)
          exact (sliceL_singleton hdrop.symm).symm
        entries_eq := rfl }
      constructor
      · show ChainWF lines i (goBlocks (l :: rest) i none)
        simp only [goBlocks, hm]
        exact iho _ hnb
      · intro b hb
        show ChainWF lines b.startLine (goBlocks (l :: rest) i (some b))
        simp only [goBlocks, hm]
        have hbwf : BlockWF lines { b with endLine := i } := {
          start_lt_end := hb.start_lt
          end_le := le_of_lt hil
          host_at_start := hb.host_at_start
          no_host_inside := hb.no_host_inside
          end_boundary := Or.inr (by show (hostMatch (lines.getD i "")).isSome = true; rw [hgetD, hm]; rfl)
          lines_eq := hb.lines_eq
          entries_eq := hb.entries_eq }
        refine ChainWF.cons b.startLine _ _ le_rfl ?_ hbwf ?_
        · show hostFree lines b.startLine b.startLine
          intro j hj hj'
          omega
        · show ChainWF lines i (goBlocks rest (i + 1) (some _))
          exact iho _ hnb
    | none =>
      constructor
      · show ChainWF lines i (goBlocks (l :: rest) i none)
        simp only [goBlocks, hm]
        exact chainWF_weaken ihn (by rwa [hgetD])
      · intro b hb
        show ChainWF lines b.startLine (goBlocks (l :: rest) i (some b))
        have hblne : b.lines ≠ [] := by
          rw [hb.lines_eq]
          intro hnil
          have hlz : (sliceL lines b.startLine i).length = 0 := by rw [hnil]; rfl
          unfold sliceL at hlz
          rw [List.length_take, List.length_drop] at hlz
          have h1 := hb.start_lt
          have h2 := hb.le_len
          omega
        have hnhi : hostFree lines (b.startLine + 1) (i + 1) := by
          intro j h1 h2
          rcases Nat.lt_or_ge j i with hlt | hge
          · exact hb.no_host_inside j h1 hlt
          · have : j = i := by omega
            subst this
            rw [hgetD]
            exact hm
        have hlines2 : b.lines ++ [l] = sliceL lines b.startLine (i + 1) := by
          rw [sliceL_snoc (le_of_lt hb.start_lt) hil, ← hb.lines_eq, hgetD]
        simp only [goBlocks, hm]
        cases him : identityMatch l with
        | none =>
          have hb2 : OpenInv lines (i + 1) { b with lines := b.lines ++ [l] } := {
            start_lt := by show b.startLine < i + 1; have := hb.start_lt; omega
            le_len := by omega
            host_at_start := hb.host_at_start
            no_host_inside := hnhi
            lines_eq := hlines2
            entries_eq := by
              show b.identityFiles = entriesOf (b.lines ++ [l])
              rw [entriesOf_append_none him]
              exact hb.entries_eq }
          exact iho _ hb2
        | some cp =>
          have hb2 : OpenInv lines (i + 1)
              { b with
                  lines := b.lines ++ [l]
                  identityFiles := b.identityFiles ++
                    [{ lineIndex := (b.lines ++ [l]).length - 1, path := cp.2,
                       isCommented := cp.1, fullLine := l }] } := {
            start_lt := by show b.startLine < i + 1; have := hb.start_lt; omega
            le_len := by omega
            host_at_start := hb.host_at_start
            no_host_inside := hnhi
            lines_eq := hlines2
            entries_eq := by
              show b.identityFiles ++ _ = entriesOf (b.lines ++ [l])
              rw [entriesOf_append_some him hblne, ← hb.entries_eq]
              congr 2
              simp [List.length_append]
          }
          exact iho _ hb2

/-- The block sequence produced by the parser is a well-formed chain. -/
theorem parseBlocks_chainWF (lines : List String) :
    ChainWF lines 0 (parseBlocks lines) :=
  (goBlocks_spec lines lines 0 (by simp)).1

/-- A well-formed chain over a fixed line sequence is unique: the chain
structure is fully determined by the per-line classification. -/
theorem chainWF_unique {lines : List String} {i : Nat} {bs bs' : List HostBlock}
    (h : ChainWF lines i bs) (h' : ChainWF lines i bs') : bs = bs' := by
  induction h generalizing bs' with
  | nil i hfree =>
    cases h' with
    | nil => rfl
    | cons _ b' bs'' hle' hgap' hb' htail' =>
      exfalso
      have hin : b'.startLine < lines.length :=
        lt_of_lt_of_le hb'.start_lt_end hb'.end_le
      have hnone := hfree b'.startLine hle' hin
      have hsome := hb'.host_at_start
      rw [hnone] at hsome
      cases hsome
  | cons i b bs hle hgap hb htail ih =>
    cases h' with
    | nil _ hfree =>
      exfalso
      have hin : b.startLine < lines.length :=
        lt_of_lt_of_le hb.start_lt_end hb.end_le
      have hnone := hfree b.startLine hle hin
      have hsome := hb.host_at_start
      rw [hnone] at hsome
      cases hsome
    | cons _ b' bs'' hle' hgap' hb' htail' =>
      have hstart : b.startLine = b'.startLine := by
        by_contra hne
        rcases Nat.lt_or_ge b.startLine b'.startLine with hlt | hge
        · have hnone := hgap' b.startLine hle hlt
          have hsome := hb.host_at_start
          rw [hnone] at hsome
          cases hsome
        · have hlt : b'.startLine < b.startLine := by omega
          have hnone := hgap b'.startLine hle' hlt
          have hsome := hb'.host_at_start
          rw [hnone] at hsome
          cases hsome
      have hend : b.endLine = b'.endLine := by
        by_contra hne
        rcases Nat.lt_or_ge b.endLine b'.endLine with hlt | hge
        · have hmid := hb'.no_host_inside b.endLine
            (by rw [← hstart]; exact hb.start_lt_end) hlt
          rcases hb.end_boundary with hlen | hhost
          · have := hb'.end_le
            omega
          · rw [hmid] at hhost
            cases hhost
        · have hlt : b'.endLine < b.endLine := by omega
          have hmid := hb.no_host_inside b'.endLine
            (by rw [hstart]; exact hb'.start_lt_end) hlt
          rcases hb'.end_boundary with hlen | hhost
          · have := hb.end_le
            omega
          · rw [hmid] at hhost
            cases hhost
      have hhn : b.hostname = b'.hostname := by
        have h1 := hb.host_at_start
        have h2 := hb'.host_at_start
        rw [hstart, h2] at h1
        exact (Option.some.injEq _ _).mp h1.symm
      have hlines : b.lines = b'.lines := by
        rw [hb.lines_eq, hb'.lines_eq, hstart, hend]
      have hents : b.identityFiles = b'.identityFiles := by
        rw [hb.entries_eq, hb'.entries_eq, hlines]
      have hbeq : b = b' := by
        cases b
        cases b'
        simp only [HostBlock.mk.injEq]
        exact ⟨hstart, hend, hhn, hlines, hents⟩
      subst hbeq
      rw [ih htail']

/-- Read-off of the chain properties for every block of a well-formed
chain. -/
theorem chainWF_props {lines : List String} {i : Nat} {bs : List HostBlock}
    (h : ChainWF lines i bs) :
    List.Chain' (fun a b => a.endLine ≤ b.startLine) bs ∧
    ∀ b ∈ bs, i ≤ b.startLine ∧ b.startLine < b.endLine ∧ b.endLine ≤ lines.length ∧
      hostMatch (lines.getD b.startLine "") = some b.hostname ∧
      hostFree lines (b.startLine + 1) b.endLine ∧
      b.lines = sliceL lines b.startLine b.endLine ∧
      b.identityFiles = entriesOf b.lines := by
  induction h with
  | nil i hfree => exact ⟨List.chain'_nil, by simp⟩
  | cons i b bs hle hgap hb htail ih =>
    constructor
    · cases bs with
      | nil => simp
      | cons b2 bs2 =>
        rw [List.chain'_cons]
        refine ⟨?_, ih.1⟩
        cases htail with
        | cons _ _ _ hle2 _ _ _ => exact hle2
    · intro b' hb'
      rcases List.mem_cons.mp hb' with rfl | hmem
      · exact ⟨hle, hb.start_lt_end, hb.end_le, hb.host_at_start, hb.no_host_inside,
          hb.lines_eq, hb.entries_eq⟩
      · obtain ⟨h1, h2, h3, h4, h5, h6, h7⟩ := ih.2 b' hmem
        have := hb.start_lt_end
        have := hb.end_le
        exact ⟨by omega, h2, h3, h4, h5, h6, h7⟩

/-- Membership version of the block properties for the parser output. -/
theorem parseBlocks_mem_props {lines : List String} {b : HostBlock}
    (hb : b ∈ parseBlocks lines) :
    b.startLine < b.endLine ∧ b.endLine ≤ lines.length ∧
    hostMatch (lines.getD b.startLine "") = some b.hostname ∧
    hostFree lines (b.startLine + 1) b.endLine ∧
    b.lines = sliceL lines b.startLine b.endLine ∧
    b.identityFiles = entriesOf b.lines := by
  obtain ⟨h1, h2, h3, h4, h5, h6, h7⟩ := (chainWF_props (parseBlocks_chainWF lines)).2 b hb
  exact ⟨h2, h3, h4, h5, h6, h7⟩

/-- Re-derivation of the stored block sequence from the current line
sequence: the effect of the `parseBlocks` method on its receiver. -/
def reparse (c : ConfigFile) : ConfigFile :=
  { c with blocks := parseBlocks c.lines }

/-- Every mutating operation leaves a configuration whose stored blocks are
the parser output on its lines. -/
theorem wf_preserved (home : Option String) (c : ConfigFile) (hwf : WF c)
    (hn keyPath : String) (active : Bool) :
    WF (ActivateKey home c hn keyPath).1 ∧ WF (AddIdentityFile home c hn keyPath active).1 := by
  constructor
  · cases hfb : FindHostBlock c hn with
    | none => rw [ActivateKey_eq_of_none hfb]; exact hwf
    | some b =>
      cases hany : b.identityFiles.any
          (fun ifl => normalizePath home ifl.path == normalizePath home keyPath) with
      | true => rw [ActivateKey_eq_of_found hfb hany]; rfl
      | false => rw [ActivateKey_eq_of_notfound hfb hany]; exact hwf
  · cases hfb : FindHostBlock c hn with
    | none => rw [AddIdentityFile_eq_of_none hfb]; exact hwf
    | some b =>
      cases hany : b.identityFiles.any
          (fun ifl => normalizePath home ifl.path == normalizePath home keyPath) with
      | true => rw [AddIdentityFile_eq_of_exists hfb hany]; exact hwf
      | false => rw [AddIdentityFile_eq_of_insert hfb hany]; rfl

/-! ## Claim C4 -/

/-- C4: the block parser is idempotent — re-deriving the block sequence of a
configuration whose lines are unchanged yields an identical block
sequence — and after construction (`mkConfig`, `parseConfig`) and after
every mutating operation the stored block sequence is exactly what the
parser produces from the current line sequence; the produced blocks are
pairwise non-overlapping half-open line ranges `[startLine, endLine)` in
non-decreasing line order, each beginning at a host-declaration line. -/
theorem parser_idempotent_and_invariants (ls : List String) (content pathArg : String)
    (home : Option String) (c : ConfigFile) (hwf : WF c)
    (hn keyPath : String) (active : Bool) :
    (reparse (reparse c) = reparse c) ∧
    (WF (mkConfig ls) ∧ WF (parseConfig pathArg content)) ∧
    (WF (ActivateKey home c hn keyPath).1 ∧
      WF (AddIdentityFile home c hn keyPath active).1) ∧
    List.Chain' (fun a b => a.endLine ≤ b.startLine) (parseBlocks ls) ∧
    (∀ b ∈ parseBlocks ls, b.startLine < b.endLine ∧ b.endLine ≤ ls.length ∧
      (hostMatch (ls.getD b.startLine "")).isSome = true) := by
  refine ⟨rfl, ⟨rfl, rfl⟩, wf_preserved home c hwf hn keyPath active,
    (chainWF_props (parseBlocks_chainWF ls)).1, ?_⟩
  intro b hb
  obtain ⟨h1, h2, h3, _, _, _⟩ := parseBlocks_mem_props hb
  exact ⟨h1, h2, by rw [h3]; rfl⟩

/-- Witness for C4 at concrete inputs. -/
theorem parser_idempotent_and_invariants_w :
    WF (ActivateKey none (mkConfig ["Host h", "IdentityFile k"]) "h" "k").1 ∧
    ∀ b ∈ parseBlocks ["Host h"], b.startLine < b.endLine :=
  ⟨(parser_idempotent_and_invariants ["Host h"] "" "" none
      (mkConfig ["Host h", "IdentityFile k"]) rfl "h" "k" true).2.2.1.1,
   fun b hb => ((parser_idempotent_and_invariants ["Host h"] "" "" none
      (mkConfig ["Host h", "IdentityFile k"]) rfl "h" "k" true).2.2.2.2 b hb).1⟩

/-! ## Bounds on entry indices -/

theorem entGo_mem_bounds : ∀ (xs : List String) (j : Nat) (ent : IdentityFileLine),
    ent ∈ entGo xs j → j ≤ ent.lineIndex ∧ ent.lineIndex < j + xs.length := by
  intro xs
  induction xs with
  | nil =>
    intro j ent h
    simp [entGo] at h
  | cons x xs ih =>
    intro j ent h
    cases hx : identityMatch x with
    | none =>
      rw [entGo, hx] at h
      have := ih (j + 1) ent h
      simp only [List.length_cons]
      omega
    | some cp =>
      rw [entGo, hx] at h
      rcases List.mem_cons.mp h with rfl | hmem
      · simp only [List.length_cons]
        omega
      · have := ih (j + 1) ent hmem
        simp only [List.length_cons]
        omega

theorem entriesOf_mem_bounds {bl : List String} {ent : IdentityFileLine}
    (h : ent ∈ entriesOf bl) : 1 ≤ ent.lineIndex ∧ ent.lineIndex < bl.length := by
  have hb := entGo_mem_bounds bl.tail 1 ent h
  cases bl with
  | nil => simp [entriesOf, entGo] at h
  | cons x xs =>
    simp only [List.tail_cons] at hb
    simp only [List.length_cons]
    omega

/-- Length of a well-formed block's line view. -/
theorem block_lines_length {lines : List String} {b : HostBlock}
    (hle : b.endLine ≤ lines.length)
    (hlines : b.lines = sliceL lines b.startLine b.endLine) :
    b.lines.length = b.endLine - b.startLine := by
  rw [hlines]
  unfold sliceL
  rw [List.length_take, List.length_drop]
  omega

/-- Properties of the block returned by `FindHostBlock` on a well-formed
configuration. -/
theorem findHostBlock_wf_props {c : ConfigFile} (hwf : WF c) {hn : String} {b : HostBlock}
    (hfb : FindHostBlock c hn = some b) :
    b.startLine < b.endLine ∧ b.endLine ≤ c.lines.length ∧
    hostMatch (c.lines.getD b.startLine "") = some b.hostname ∧
    hostFree c.lines (b.startLine + 1) b.endLine ∧
    b.lines = sliceL c.lines b.startLine b.endLine ∧
    b.identityFiles = entriesOf b.lines ∧
    b.hostname = hn := by
  have hmem : b ∈ c.blocks := List.mem_of_find?_eq_some hfb
  rw [hwf] at hmem
  obtain ⟨h1, h2, h3, h4, h5, h6⟩ := parseBlocks_mem_props hmem
  have hhn : b.hostname = hn := by simpa using List.find?_some hfb
  exact ⟨h1, h2, h3, h4, h5, h6, hhn⟩

/-- Global index bounds of a block's entries in a well-formed
configuration. -/
theorem entry_global_bounds {lines : List String} {b : HostBlock}
    (hlt : b.startLine < b.endLine) (hle : b.endLine ≤ lines.length)
    (hlines : b.lines = sliceL lines b.startLine b.endLine)
    (hents : b.identityFiles = entriesOf b.lines) :
    ∀ ent ∈ b.identityFiles,
      b.startLine + 1 ≤ b.startLine + ent.lineIndex ∧
      b.startLine + ent.lineIndex < b.endLine := by
  intro ent hent
  rw [hents] at hent
  have hbnd := entriesOf_mem_bounds hent
  have hlen := block_lines_length hle hlines
  omega

/-! ## Frame lemma for the rewriting fold -/

theorem foldl_set_frame (g : List String → IdentityFileLine → String) (s e : Nat) :
    ∀ (ents : List IdentityFileLine) (lines : List String),
      (∀ ent ∈ ents, s + ent.lineIndex < e) →
      ((ents.foldl (fun ls ifl => ls.set (s + ifl.lineIndex) (g ls ifl)) lines).take s =
          lines.take s ∧
        (ents.foldl (fun ls ifl => ls.set (s + ifl.lineIndex) (g ls ifl)) lines).drop e =
          lines.drop e) := by
  intro ents
  induction ents with
  | nil => intro lines _; exact ⟨rfl, rfl⟩
  | cons ent ents ih =>
    intro lines hmem
    simp only [List.foldl_cons]
    obtain ⟨ih1, ih2⟩ := ih (lines.set (s + ent.lineIndex) (g lines ent))
      (fun x hx => hmem x (List.mem_cons_of_mem _ hx))
    constructor
    · rw [ih1, List.set_take, List.set_eq_of_length_le]
      rw [List.length_take]
      omega
    · rw [ih2, List.drop_set, if_pos (hmem ent (List.mem_cons_self _ _))]

theorem activateRewrites_frame (home : Option String) (nkp : String) (b : HostBlock)
    (lines : List String)
    (hidx : ∀ ent ∈ b.identityFiles, b.startLine + ent.lineIndex < b.endLine) :
    (activateRewrites home nkp b lines).take b.startLine = lines.take b.startLine ∧
    (activateRewrites home nkp b lines).drop b.endLine = lines.drop b.endLine :=
  foldl_set_frame
    (fun ls ifl =>
      if normalizePath home ifl.path == nkp then
        uncommentIdentityFile (ls.getD (b.startLine + ifl.lineIndex) "")
      else commentIdentityFile (ls.getD (b.startLine + ifl.lineIndex) ""))
    b.startLine b.endLine b.identityFiles lines hidx

/-! ## Claim C3 -/

/-- C3: for both mutating operations on a parsed configuration, every line
outside the targeted host block — all preamble lines and earlier blocks
(indices below `startLine`) and all later lines (indices from `endLine` on,
shifted by one when a line was inserted) — is byte-identical before and
after the operation. -/
theorem mutation_locality (home : Option String) (c : ConfigFile) (hwf : WF c)
    (hn keyPath : String) (active : Bool) (b : HostBlock)
    (hfb : FindHostBlock c hn = some b) :
    ((ActivateKey home c hn keyPath).1.lines.take b.startLine =
        c.lines.take b.startLine ∧
      (ActivateKey home c hn keyPath).1.lines.drop b.endLine =
        c.lines.drop b.endLine) ∧
    ((AddIdentityFile home c hn keyPath active).1.lines.take b.startLine =
        c.lines.take b.startLine ∧
      ((AddIdentityFile home c hn keyPath active).1.lines.drop b.endLine =
          c.lines.drop b.endLine ∨
        (AddIdentityFile home c hn keyPath active).1.lines.drop (b.endLine + 1) =
          c.lines.drop b.endLine)) := by
  obtain ⟨hlt, hle, hhost, hfree, hlines, hents, hhn⟩ := findHostBlock_wf_props hwf hfb
  have hidx := entry_global_bounds hlt hle hlines hents
  constructor
  · cases hany : b.identityFiles.any
        (fun ifl => normalizePath home ifl.path == normalizePath home keyPath) with
    | true =>
      rw [ActivateKey_eq_of_found hfb hany]
      exact activateRewrites_frame home (normalizePath home keyPath) b c.lines
        (fun ent hent => (hidx ent hent).2)
    | false =>
      rw [ActivateKey_eq_of_notfound hfb hany]
      exact ⟨rfl, rfl⟩
  · cases hany : b.identityFiles.any
        (fun ifl => normalizePath home ifl.path == normalizePath home keyPath) with
    | true =>
      rw [AddIdentityFile_eq_of_exists hfb hany]
      exact ⟨rfl, Or.inl rfl⟩
    | false =>
      rw [AddIdentityFile_eq_of_insert hfb hany]
      have hib : b.startLine + 1 ≤ addInsertIdx b ∧ addInsertIdx b ≤ b.endLine := by
        unfold addInsertIdx
        cases hlast : b.identityFiles.getLast? with
        | none => exact ⟨le_rfl, hlt⟩
        | some lastIF =>
          have hmem := List.mem_of_getLast?_eq_some hlast
          have := hidx lastIF hmem
          show b.startLine + 1 ≤ b.startLine + lastIF.lineIndex + 1 ∧
            b.startLine + lastIF.lineIndex + 1 ≤ b.endLine
          omega
      have htakelen : (c.lines.take (addInsertIdx b)).length = addInsertIdx b := by
        rw [List.length_take]
        omega
      constructor
      · rw [List.take_append_of_le_length (by omega)]
        rw [List.take_take]
        congr 1
        omega
      · right
        have hsplit : b.endLine + 1 =
            (c.lines.take (addInsertIdx b)).length + (b.endLine + 1 - addInsertIdx b) := by
          omega
        rw [hsplit, List.drop_append]
        have hsucc : b.endLine + 1 - addInsertIdx b = (b.endLine - addInsertIdx b) + 1 := by
          omega
        rw [hsucc, List.drop_succ_cons, List.drop_drop]
        congr 1
        omega

/-- Witness for C3 at a concrete configuration. -/
theorem mutation_locality_w :
    (ActivateKey none (mkConfig ["x", "Host h", "IdentityFile k", "Host b"]) "h"
        "k").1.lines.take 1 =
      (mkConfig ["x", "Host h", "IdentityFile k", "Host b"]).lines.take 1 ∧
    ((AddIdentityFile none (mkConfig ["x", "Host h", "IdentityFile k", "Host b"]) "h"
        "k2" true).1.lines.drop 3 =
        (mkConfig ["x", "Host h", "IdentityFile k", "Host b"]).lines.drop 3 ∨
      (AddIdentityFile none (mkConfig ["x", "Host h", "IdentityFile k", "Host b"]) "h"
        "k2" true).1.lines.drop 4 =
        (mkConfig ["x", "Host h", "IdentityFile k", "Host b"]).lines.drop 3) :=
  ⟨(mutation_locality none (mkConfig ["x", "Host h", "IdentityFile k", "Host b"])
      rfl "h" "k" true
      { startLine := 1
        endLine := 3
        hostname := "h"
        lines := ["Host h", "IdentityFile k"]
        identityFiles :=
          [{ lineIndex := 1, path := "k", isCommented := false, fullLine := "IdentityFile k" }] }
      (by decide)).1.1,
    (mutation_locality none (mkConfig ["x", "Host h", "IdentityFile k", "Host b"])
      rfl "h" "k2" true
      { startLine := 1
        endLine := 3
        hostname := "h"
        lines := ["Host h", "IdentityFile k"]
        identityFiles :=
          [{ lineIndex := 1, path := "k", isCommented := false, fullLine := "IdentityFile k" }] }
      (by decide)).2.2⟩

/-! ## Pointwise characterization of the rewriting fold -/

theorem entGo_mem_line : ∀ (xs : List String) (j : Nat) (ent : IdentityFileLine),
    ent ∈ entGo xs j →
      xs.getD (ent.lineIndex - j) "" = ent.fullLine ∧
      identityMatch ent.fullLine = some (ent.isCommented, ent.path) := by
  intro xs
  induction xs with
  | nil =>
    intro j ent h
    simp [entGo] at h
  | cons x xs ih =>
    intro j ent h
    cases hx : identityMatch x with
    | none =>
      rw [entGo, hx] at h
      have hbnd := entGo_mem_bounds xs (j + 1) ent h
      obtain ⟨ih1, ih2⟩ := ih (j + 1) ent h
      refine ⟨?_, ih2⟩
      have harith : ent.lineIndex - j = (ent.lineIndex - (j + 1)) + 1 := by omega
      rw [harith]
      simpa using ih1
    | some cp =>
      rw [entGo, hx] at h
      rcases List.mem_cons.mp h with rfl | hmem
      · refine ⟨by simp, ?_⟩
        simpa using hx
      · have hbnd := entGo_mem_bounds xs (j + 1) ent hmem
        obtain ⟨ih1, ih2⟩ := ih (j + 1) ent hmem
        refine ⟨?_, ih2⟩
        have harith : ent.lineIndex - j = (ent.lineIndex - (j + 1)) + 1 := by omega
        rw [harith]
        simpa using ih1

theorem entGo_sorted : ∀ (xs : List String) (j : Nat),
    List.Pairwise (fun a b => a.lineIndex < b.lineIndex) (entGo xs j) := by
  intro xs
  induction xs with
  | nil => intro j; simp [entGo]
  | cons x xs ih =>
    intro j
    cases hx : identityMatch x with
    | none => rw [entGo, hx]; exact ih (j + 1)
    | some cp =>
      rw [entGo, hx]
      refine List.Pairwise.cons ?_ (ih (j + 1))
      intro ent hent
      have := entGo_mem_bounds xs (j + 1) ent hent
      show j < ent.lineIndex
      omega

theorem sliceL_getD {lines : List String} {s e k : Nat} (hk : k < e - s)
    (_he : e ≤ lines.length) :
    (sliceL lines s e).getD k "" = lines.getD (s + k) "" := by
  unfold sliceL
  rw [List.getD_eq_getElem?_getD, List.getD_eq_getElem?_getD]
  rw [List.getElem?_take_of_lt hk, List.getElem?_drop]

/-- Each entry of a well-formed block records the line text found at its
global index together with its classification. -/
theorem block_entry_line {lines : List String} {b : HostBlock}
    (hlt : b.startLine < b.endLine) (hle : b.endLine ≤ lines.length)
    (hlines : b.lines = sliceL lines b.startLine b.endLine)
    (hents : b.identityFiles = entriesOf b.lines) :
    ∀ ent ∈ b.identityFiles,
      lines.getD (b.startLine + ent.lineIndex) "" = ent.fullLine ∧
      identityMatch ent.fullLine = some (ent.isCommented, ent.path) := by
  intro ent hent
  have hentE := hent
  rw [hents] at hentE
  have hbnd := entriesOf_mem_bounds hentE
  have hlen := block_lines_length hle hlines
  obtain ⟨h1, h2⟩ := entGo_mem_line b.lines.tail 1 ent hentE
  refine ⟨?_, h2⟩
  have htail : b.lines.getD ent.lineIndex "" = ent.fullLine := by
    cases hbl : b.lines with
    | nil =>
      rw [hbl] at hlen
      simp at hlen
      omega
    | cons x xs =>
      rw [hbl] at h1
      simp only [List.tail_cons] at h1
      have harith : ent.lineIndex = (ent.lineIndex - 1) + 1 := by omega
      rw [harith]
      simpa using h1
  rw [← htail, hlines, sliceL_getD (by omega) hle]

theorem getD_set_ne {α : Type} {l : List α} {i j : Nat} {a d : α} (h : i ≠ j) :
    (l.set i a).getD j d = l.getD j d := by
  rw [List.getD_eq_getElem?_getD, List.getD_eq_getElem?_getD, List.getElem?_set_ne h]

theorem getD_set_self {α : Type} {l : List α} {i : Nat} {a d : α} (h : i < l.length) :
    (l.set i a).getD i d = a := by
  rw [List.getD_eq_getElem?_getD, List.getElem?_set_self h]
  rfl

/-- Pointwise description of a fold of in-range writes at strictly
increasing indices, where each written value is computed from the value
currently stored at the written index (which the strict monotonicity keeps
equal to the original value). -/
theorem foldl_set_getD (g : String → IdentityFileLine → String) (s : Nat) :
    ∀ (ents : List IdentityFileLine) (lines : List String),
      List.Pairwise (fun a b => a.lineIndex < b.lineIndex) ents →
      (∀ ent ∈ ents, s + ent.lineIndex < lines.length) →
      ((ents.foldl (fun ls ifl =>
          ls.set (s + ifl.lineIndex) (g (ls.getD (s + ifl.lineIndex) "") ifl)) lines).length =
        lines.length ∧
      (∀ j, (∀ ent ∈ ents, s + ent.lineIndex ≠ j) →
        (ents.foldl (fun ls ifl =>
          ls.set (s + ifl.lineIndex) (g (ls.getD (s + ifl.lineIndex) "") ifl)) lines).getD j "" =
          lines.getD j "") ∧
      (∀ ent ∈ ents,
        (ents.foldl (fun ls ifl =>
          ls.set (s + ifl.lineIndex) (g (ls.getD (s + ifl.lineIndex) "") ifl)) lines).getD
            (s + ent.lineIndex) "" =
          g (lines.getD (s + ent.lineIndex) "") ent)) := by
  intro ents
  induction ents with
  | nil =>
    intro lines _ _
    exact ⟨rfl, fun j _ => rfl, by simp⟩
  | cons ent ents ih =>
    intro lines hsorted hbnd
    have hlt : s + ent.lineIndex < lines.length := hbnd ent (List.mem_cons_self _ _)
    simp only [List.foldl_cons]
    set lines' := lines.set (s + ent.lineIndex) (g (lines.getD (s + ent.lineIndex) "") ent)
      with hlines'
    have hlen' : lines'.length = lines.length := by
      rw [hlines', List.length_set]
    obtain ⟨ihlen, ihout, ihin⟩ := ih lines' (List.Pairwise.sublist (List.sublist_cons_self _ _) hsorted)
      (fun x hx => by rw [hlen']; exact hbnd x (List.mem_cons_of_mem _ hx))
    have hne : ∀ x ∈ ents, s + x.lineIndex ≠ s + ent.lineIndex := by
      intro x hx
      have := (List.pairwise_cons.mp hsorted).1 x hx
      omega
    refine ⟨by rw [ihlen, hlen'], ?_, ?_⟩
    · intro j hj
      rw [ihout j (fun x hx => hj x (List.mem_cons_of_mem _ hx)), hlines',
        getD_set_ne (hj ent (List.mem_cons_self _ _))]
    · intro x hx
      rcases List.mem_cons.mp hx with rfl | hmem
      · rw [ihout (s + x.lineIndex) (fun y hy => hne y hy), hlines',
          getD_set_self hlt]
      · rw [ihin x hmem, hlines', getD_set_ne (hne x hmem).symm]

/-- Specialization to `activateRewrites` on a well-formed configuration:
the rewritten sequence keeps its length, leaves non-entry lines untouched,
and rewrites each entry line with `uncommentIdentityFile` or
`commentIdentityFile` according to the normalized-path comparison. -/
theorem activateRewrites_getD {home : Option String} {nkp : String} {b : HostBlock}
    {lines : List String}
    (hsorted : List.Pairwise (fun a b => a.lineIndex < b.lineIndex) b.identityFiles)
    (hbnd : ∀ ent ∈ b.identityFiles, b.startLine + ent.lineIndex < lines.length) :
    (activateRewrites home nkp b lines).length = lines.length ∧
    (∀ j, (∀ ent ∈ b.identityFiles, b.startLine + ent.lineIndex ≠ j) →
      (activateRewrites home nkp b lines).getD j "" = lines.getD j "") ∧
    (∀ ent ∈ b.identityFiles,
      (activateRewrites home nkp b lines).getD (b.startLine + ent.lineIndex) "" =
        (if normalizePath home ent.path == nkp then
          uncommentIdentityFile (lines.getD (b.startLine + ent.lineIndex) "")
        else commentIdentityFile (lines.getD (b.startLine + ent.lineIndex) ""))) :=
  foldl_set_getD
    (fun orig ifl =>
      if normalizePath home ifl.path == nkp then uncommentIdentityFile orig
      else commentIdentityFile orig)
    b.startLine b.identityFiles lines hsorted hbnd

/-- The entry list of a well-formed block has strictly increasing line
indices. -/
theorem block_entries_sorted {b : HostBlock}
    (hents : b.identityFiles = entriesOf b.lines) :
    List.Pairwise (fun a b => a.lineIndex < b.lineIndex) b.identityFiles := by
  rw [hents]
  exact entGo_sorted b.lines.tail 1

/-! ## Claim C10 -/

/-- C10: during a successful `ActivateKey`, every entry whose normalized
path equals the normalized key path is rewritten to the canonical form
`<original-indent>IdentityFile <path-as-written>` even when it is already
uncommented — so keyword casing and interior spacing of an already-active
matching line may change, as the concrete conjunct shows on the line
`identityfile  k` — whereas an entry that does not match and is already
commented is returned byte-identical. -/
theorem activateKey_canonicalizes_matching_lines (home : Option String) (c : ConfigFile)
    (hwf : WF c) (hn keyPath : String) (b : HostBlock)
    (hfb : FindHostBlock c hn = some b)
    (hsucc : (ActivateKey home c hn keyPath).2 = none) :
    (∀ ent ∈ b.identityFiles,
      (normalizePath home ent.path = normalizePath home keyPath →
        (ActivateKey home c hn keyPath).1.lines.getD (b.startLine + ent.lineIndex) "" =
          (⟨indentOf ent.fullLine⟩ : String) ++ "IdentityFile " ++ ent.path) ∧
      (normalizePath home ent.path ≠ normalizePath home keyPath → ent.isCommented = true →
        (ActivateKey home c hn keyPath).1.lines.getD (b.startLine + ent.lineIndex) "" =
          c.lines.getD (b.startLine + ent.lineIndex) "")) ∧
    ((ActivateKey none (mkConfig ["Host h", "identityfile  k"]) "h" "k").1.lines.getD 1 "" =
        "IdentityFile k" ∧
      ("IdentityFile k" : String) ≠ "identityfile  k") := by
  refine ⟨?_, by decide⟩
  obtain ⟨hlt, hle, hhost, hfree, hlines, hents, hhn⟩ := findHostBlock_wf_props hwf hfb
  have hany : b.identityFiles.any
      (fun ifl => normalizePath home ifl.path == normalizePath home keyPath) = true := by
    cases hany : b.identityFiles.any
        (fun ifl => normalizePath home ifl.path == normalizePath home keyPath) with
    | true => rfl
    | false =>
      rw [ActivateKey_eq_of_notfound hfb hany] at hsucc
      cases hsucc
  have hbnd : ∀ ent ∈ b.identityFiles, b.startLine + ent.lineIndex < c.lines.length :=
    fun ent hent =>
      lt_of_lt_of_le ((entry_global_bounds hlt hle hlines hents ent hent).2) hle
  obtain ⟨hlen, hout, hin⟩ := @activateRewrites_getD home (normalizePath home keyPath)
    b c.lines (block_entries_sorted hents) hbnd
  intro ent hent
  obtain ⟨hgetline, hidm⟩ := block_entry_line hlt hle hlines hents ent hent
  rw [ActivateKey_eq_of_found hfb hany]
  constructor
  · intro hmatch
    have := hin ent hent
    rw [hgetline] at this
    simp only [hmatch, beq_self_eq_true, if_true] at this
    rw [this]
    unfold uncommentIdentityFile
    rw [hidm]
  · intro hmatch hcm
    have := hin ent hent
    rw [hgetline] at this
    have hbeq : (normalizePath home ent.path == normalizePath home keyPath) = false := by
      simpa using hmatch
    rw [hbeq] at this
    simp only [Bool.false_eq_true, if_false] at this
    rw [this]
    unfold commentIdentityFile
    rw [hidm]
    simp only [hcm, if_true]
    exact hgetline.symm

/-- Witness for C10 at a concrete configuration. -/
theorem activateKey_canonicalizes_matching_lines_w :
    (ActivateKey none (mkConfig ["Host h", "IdentityFile k", "# IdentityFile j"]) "h"
        "k").1.lines.getD 2 "" =
      (mkConfig ["Host h", "IdentityFile k", "# IdentityFile j"]).lines.getD 2 "" :=
  ((activateKey_canonicalizes_matching_lines none
      (mkConfig ["Host h", "IdentityFile k", "# IdentityFile j"]) rfl "h" "k"
      { startLine := 0
        endLine := 3
        hostname := "h"
        lines := ["Host h", "IdentityFile k", "# IdentityFile j"]
        identityFiles :=
          [{ lineIndex := 1, path := "k", isCommented := false, fullLine := "IdentityFile k" },
           { lineIndex := 2, path := "j", isCommented := true, fullLine := "# IdentityFile j" }] }
      (by decide) rfl).1
    { lineIndex := 2, path := "j", isCommented := true, fullLine := "# IdentityFile j" }
    (by decide)).2 (by decide) rfl

/-! ## Classification of the canonical rewritten lines -/

theorem dropWhile_append_of_all {p : Char → Bool} :
    ∀ (ind rest : List Char), (∀ c ∈ ind, p c = true) →
      (ind ++ rest).dropWhile p = rest.dropWhile p := by
  intro ind
  induction ind with
  | nil => intro rest _; rfl
  | cons c cs ih =>
    intro rest hall
    simp only [List.cons_append, List.dropWhile_cons, hall c (List.mem_cons_self _ _), if_true]
    exact ih rest (fun x hx => hall x (List.mem_cons_of_mem _ hx))

theorem mem_of_dropWhile {p : Char → Bool} {l : List Char} {x : Char}
    (h : x ∈ l.dropWhile p) : x ∈ l :=
  List.dropWhile_sublist p |>.mem h

theorem mem_of_dropTrail {p : Char → Bool} {l : List Char} {x : Char}
    (h : x ∈ dropTrail p l) : x ∈ l := by
  unfold dropTrail at h
  rw [List.mem_reverse] at h
  exact List.mem_reverse.mp (mem_of_dropWhile h)

theorem mem_of_trimBoth {p : Char → Bool} {l : List Char} {x : Char}
    (h : x ∈ trimBoth p l) : x ∈ l := by
  unfold trimBoth at h
  exact mem_of_dropWhile (mem_of_dropTrail h)

theorem dropWhile_eq_self_of_head {p : Char → Bool} {c : Char} {cs : List Char}
    (hc : p c = false) : (c :: cs).dropWhile p = c :: cs := by
  simp [List.dropWhile_cons, hc]

theorem head_false_of_dropWhile_self {p : Char → Bool} {c : Char} {cs : List Char}
    (h : (c :: cs).dropWhile p = c :: cs) : p c = false := by
  cases hc : p c with
  | false => rfl
  | true =>
    rw [List.dropWhile_cons, hc, if_pos rfl] at h
    have hle := (List.dropWhile_sublist (l := cs) p).length_le
    have : (cs.dropWhile p).length = cs.length + 1 := by
      rw [h]
      rfl
    omega

theorem dropWhile_length_eq {p : Char → Bool} :
    ∀ {l : List Char}, (l.dropWhile p).length = l.length → l.dropWhile p = l := by
  intro l
  induction l with
  | nil => intro _; rfl
  | cons c cs ih =>
    intro h
    cases hc : p c with
    | false => exact dropWhile_eq_self_of_head hc
    | true =>
      rw [List.dropWhile_cons, hc] at h ⊢
      simp only [if_true] at h ⊢
      have := (List.dropWhile_sublist (l := cs) p).length_le
      simp only [List.length_cons] at h
      omega

/-- A trim-stable character list is stable under each one-sided trim. -/
theorem trimBoth_stable_parts {p : Char → Bool} {l : List Char}
    (h : trimBoth p l = l) : l.dropWhile p = l ∧ dropTrail p l = l := by
  unfold trimBoth at h
  have hlen1 : (l.dropWhile p).length ≤ l.length :=
    (List.dropWhile_sublist p).length_le
  have hlen2 : (dropTrail p (l.dropWhile p)).length ≤ (l.dropWhile p).length := by
    unfold dropTrail
    rw [List.length_reverse]
    have := (List.dropWhile_sublist (l := (l.dropWhile p).reverse) p).length_le
    rw [List.length_reverse] at this
    exact this
  have hlene : (dropTrail p (l.dropWhile p)).length = l.length := by rw [h]
  have hd : (l.dropWhile p).length = l.length := by omega
  have hdw : l.dropWhile p = l := dropWhile_length_eq hd
  rw [hdw] at h
  exact ⟨hdw, h⟩

theorem dropWhile_idem (p : Char → Bool) : ∀ (l : List Char),
    (l.dropWhile p).dropWhile p = l.dropWhile p := by
  intro l
  induction l with
  | nil => rfl
  | cons c cs ih =>
    cases hc : p c with
    | true =>
      rw [List.dropWhile_cons, hc, if_pos rfl]
      exact ih
    | false =>
      rw [dropWhile_eq_self_of_head hc, dropWhile_eq_self_of_head hc]

theorem dropTrail_idem (p : Char → Bool) (l : List Char) :
    dropTrail p (dropTrail p l) = dropTrail p l := by
  unfold dropTrail
  rw [List.reverse_reverse, dropWhile_idem]

theorem dropTrail_prefix (p : Char → Bool) (l : List Char) : dropTrail p l <+: l := by
  unfold dropTrail
  have h := List.dropWhile_suffix (l := l.reverse) p
  have h2 : (l.reverse.dropWhile p).reverse <+: l.reverse.reverse := by
    rw [List.reverse_prefix]
    exact h
  rwa [List.reverse_reverse] at h2

/-- Head-stability under `dropWhile` is preserved by trailing trim. -/
theorem dropTrail_head_stable {p : Char → Bool} {l : List Char}
    (h : l.dropWhile p = l) : (dropTrail p l).dropWhile p = dropTrail p l := by
  cases l with
  | nil => rfl
  | cons c cs =>
    have hc : p c = false := head_false_of_dropWhile_self h
    cases hdt : dropTrail p (c :: cs) with
    | nil => rfl
    | cons d ds =>
      have hpre : (d :: ds) <+: (c :: cs) := by
        rw [← hdt]
        exact dropTrail_prefix p (c :: cs)
      obtain ⟨t, ht⟩ := hpre
      have hd : d = c := by
        have := ht
        simp only [List.cons_append] at this
        exact (List.cons.injEq _ _ _ _).mp this |>.1
      subst hd
      exact dropWhile_eq_self_of_head hc

theorem trimBoth_idem (p : Char → Bool) (l : List Char) :
    trimBoth p (trimBoth p l) = trimBoth p l := by
  unfold trimBoth
  have hm : (l.dropWhile p).dropWhile p = l.dropWhile p := dropWhile_idem p l
  have hstable : (dropTrail p (l.dropWhile p)).dropWhile p =
      dropTrail p (l.dropWhile p) := dropTrail_head_stable hm
  rw [hstable, dropTrail_idem]

/-- Propagate a head/tail-stability from a larger character class to a
smaller one. -/
theorem dropWhile_stable_of_imp {p q : Char → Bool} (himp : ∀ c, q c = true → p c = true)
    {l : List Char} (h : l.dropWhile p = l) : l.dropWhile q = l := by
  cases l with
  | nil => rfl
  | cons c cs =>
    have hc : p c = false := head_false_of_dropWhile_self h
    have hq : q c = false := by
      cases hq : q c with
      | false => rfl
      | true => rw [himp c hq] at hc; cases hc
    exact dropWhile_eq_self_of_head hq

theorem dropTrail_stable_of_imp {p q : Char → Bool} (himp : ∀ c, q c = true → p c = true)
    {l : List Char} (h : dropTrail p l = l) : dropTrail q l = l := by
  unfold dropTrail at h ⊢
  have hrev : l.reverse.dropWhile p = l.reverse := by
    have := congrArg List.reverse h
    rwa [List.reverse_reverse] at this
  rw [dropWhile_stable_of_imp himp hrev]
  exact List.reverse_reverse l

theorem reSpace_imp_goSpace : ∀ c, reSpace c = true → goSpace c = true := by
  intro c h
  unfold goSpace
  rw [h]
  rfl

/-- The path captured by `matchTail` is trim-stable and newline-free. -/
theorem matchTail_path_props {rest : List Char} {p : String}
    (h : matchTail rest = some p) :
    trimBoth goSpace p.data = p.data ∧ ('\n' ∈ p.data → False) := by
  simp only [matchTail] at h
  split at h
  · split at h
    · cases h
      exact ⟨rfl, fun hm => by cases hm⟩
    · cases h
  · split at h
    · cases h
    · split at h
      · cases h
      · rename_i hguard
        cases h
        refine ⟨trimBoth_idem _ _, ?_⟩
        intro hm
        have hmem := mem_of_trimBoth hm
        have : (dropTrail reSpace (rest.dropWhile reSpace)).any
            (fun c => c = '\n') = true :=
          List.any_eq_true.mpr ⟨'\n', hmem, by simp⟩
        exact hguard this

/-- The path of a classified `IdentityFile` line is trim-stable and
newline-free. -/
theorem identityMatch_path_props {l : String} {cp : Bool × String}
    (h : identityMatch l = some cp) :
    trimBoth goSpace cp.2.data = cp.2.data ∧ ('\n' ∈ cp.2.data → False) := by
  simp only [identityMatch] at h
  split at h
  · rename_i rest hsk
    rcases Option.map_eq_some'.mp h with ⟨p, hmt, hcp⟩
    have := matchTail_path_props hmt
    rw [← hcp]
    exact this
  · cases h

theorem space_tab_imp_reSpace : ∀ c : Char, (c = ' ' || c = '\t') = true →
    reSpace c = true := by
  intro c h
  rcases Bool.or_eq_true_iff.mp h with h1 | h1
  · have : c = ' ' := by simpa using h1
    rw [this]
    rfl
  · have : c = '\t' := by simpa using h1
    rw [this]
    rfl

/-- Evaluation of `matchTail` on a space followed by a trim-stable,
nonempty, newline-free path: the capture is exactly the path. -/
theorem matchTail_space_path (path : String)
    (hstable : trimBoth goSpace path.data = path.data)
    (hnl : '\n' ∈ path.data → False) (hne : path.data ≠ []) :
    matchTail (' ' :: path.data) = some path := by
  have hparts := trimBoth_stable_parts hstable
  have hhead : path.data.dropWhile reSpace = path.data :=
    dropWhile_stable_of_imp reSpace_imp_goSpace hparts.1
  have htail : dropTrail reSpace path.data = path.data :=
    dropTrail_stable_of_imp reSpace_imp_goSpace hparts.2
  have hr : (' ' :: path.data).dropWhile reSpace = path.data := by
    rw [List.dropWhile_cons]
    show path.data.dropWhile reSpace = path.data
    exact hhead
  have hrne : path.data.isEmpty = false := by
    cases hd : path.data with
    | nil => cases hne hd
    | cons c cs => rfl
  have htw : ((' ' :: path.data).takeWhile reSpace).isEmpty = false := by
    rw [List.takeWhile_cons]
    rfl
  have hany : path.data.any (fun c => c = '\n') = false := by
    rw [List.any_eq_false]
    intro x hx
    simp only [decide_eq_true_eq]
    intro hxeq
    rw [hxeq] at hx
    exact hnl hx
  simp only [matchTail, hr, hrne, htw, hany, htail, Bool.false_eq_true, if_false, hstable]

theorem indentOf_all_space_tab (line : String) :
    ∀ c ∈ indentOf line, (c = ' ' || c = '\t') = true := by
  intro c hc
  unfold indentOf at hc
  have := List.mem_takeWhile_imp (p := fun ch => ch = ' ' || ch = '\t') hc
  simpa using this

/-- The canonical uncommented entry line is not a `Host` declaration. -/
theorem hostMatch_canonical_uncommented (ind : List Char) (path : String)
    (hind : ∀ c ∈ ind, (c = ' ' || c = '\t') = true) :
    hostMatch ((⟨ind⟩ : String) ++ "IdentityFile " ++ path) = none := by
  have hD : ((⟨ind⟩ : String) ++ "IdentityFile " ++ path).data =
      ind ++ ('I' :: ("dentityFile ".data ++ path.data)) := by
    rw [String.data_append, String.data_append, List.append_assoc]
    rfl
  unfold hostMatch
  rw [hD, dropWhile_append_of_all ind _ (fun c hc => space_tab_imp_reSpace c (hind c hc)),
    dropWhile_eq_self_of_head rfl]
  rfl

/-- The canonical commented entry line is not a `Host` declaration. -/
theorem hostMatch_canonical_commented (ind : List Char) (path : String)
    (hind : ∀ c ∈ ind, (c = ' ' || c = '\t') = true) :
    hostMatch ((⟨ind⟩ : String) ++ "# IdentityFile " ++ path) = none := by
  have hD : ((⟨ind⟩ : String) ++ "# IdentityFile " ++ path).data =
      ind ++ ('#' :: (" IdentityFile ".data ++ path.data)) := by
    rw [String.data_append, String.data_append, List.append_assoc]
    rfl
  unfold hostMatch
  rw [hD, dropWhile_append_of_all ind _ (fun c hc => space_tab_imp_reSpace c (hind c hc)),
    dropWhile_eq_self_of_head rfl]
  rfl

/-- The canonical uncommented entry line with a trim-stable, nonempty,
newline-free path classifies back to an uncommented entry carrying exactly
that path. -/
theorem identityMatch_canonical_uncommented (ind : List Char) (path : String)
    (hind : ∀ c ∈ ind, (c = ' ' || c = '\t') = true)
    (hstable : trimBoth goSpace path.data = path.data)
    (hnl : '\n' ∈ path.data → False) (hne : path.data ≠ []) :
    identityMatch ((⟨ind⟩ : String) ++ "IdentityFile " ++ path) = some (false, path) := by
  have hD : ((⟨ind⟩ : String) ++ "IdentityFile " ++ path).data =
      ind ++ ('I' :: ("dentityFile ".data ++ path.data)) := by
    rw [String.data_append, String.data_append, List.append_assoc]
    rfl
  unfold identityMatch
  rw [hD, dropWhile_append_of_all ind _ (fun c hc => space_tab_imp_reSpace c (hind c hc)),
    dropWhile_eq_self_of_head rfl]
  show (matchTail (' ' :: path.data)).map (fun p => ((false : Bool), p)) = some (false, path)
  rw [matchTail_space_path path hstable hnl hne]
  rfl

/-- The canonical commented entry line with a trim-stable, nonempty,
newline-free path classifies back to a commented entry carrying exactly
that path. -/
theorem identityMatch_canonical_commented (ind : List Char) (path : String)
    (hind : ∀ c ∈ ind, (c = ' ' || c = '\t') = true)
    (hstable : trimBoth goSpace path.data = path.data)
    (hnl : '\n' ∈ path.data → False) (hne : path.data ≠ []) :
    identityMatch ((⟨ind⟩ : String) ++ "# IdentityFile " ++ path) = some (true, path) := by
  have hD : ((⟨ind⟩ : String) ++ "# IdentityFile " ++ path).data =
      ind ++ ('#' :: (" IdentityFile ".data ++ path.data)) := by
    rw [String.data_append, String.data_append, List.append_assoc]
    rfl
  unfold identityMatch
  rw [hD, dropWhile_append_of_all ind _ (fun c hc => space_tab_imp_reSpace c (hind c hc)),
    dropWhile_eq_self_of_head rfl]
  show (matchTail (' ' :: path.data)).map (fun p => ((true : Bool), p)) = some (true, path)
  rw [matchTail_space_path path hstable hnl hne]
  rfl

/-- The canonical commented entry line with an empty path is not an entry at
all: the pattern requires a nonempty capture. -/
theorem identityMatch_canonical_commented_empty (ind : List Char)
    (hind : ∀ c ∈ ind, (c = ' ' || c = '\t') = true) :
    identityMatch ((⟨ind⟩ : String) ++ "# IdentityFile " ++ "") = none := by
  have hD : ((⟨ind⟩ : String) ++ "# IdentityFile " ++ "").data =
      ind ++ ('#' :: (" IdentityFile ".data ++ ([] : List Char))) := by
    rw [String.data_append, String.data_append, List.append_assoc]
    rfl
  unfold identityMatch
  rw [hD, dropWhile_append_of_all ind _ (fun c hc => space_tab_imp_reSpace c (hind c hc)),
    dropWhile_eq_self_of_head rfl]
  rfl

/-! ## Membership characterization of the entry collection -/

theorem tail_getD {l : List String} {k : Nat} :
    l.tail.getD k "" = l.getD (k + 1) "" := by
  cases l with
  | nil => rfl
  | cons x xs => rfl

theorem entGo_mem_of_index : ∀ (xs : List String) (j k : Nat) (cp : Bool × String),
    k < xs.length → identityMatch (xs.getD k "") = some cp →
    { lineIndex := j + k, path := cp.2, isCommented := cp.1,
      fullLine := xs.getD k "" } ∈ entGo xs j := by
  intro xs
  induction xs with
  | nil =>
    intro j k cp hk
    simp at hk
  | cons x xs ih =>
    intro j k cp hk him
    cases k with
    | zero =>
      have hx : identityMatch x = some cp := him
      rw [entGo, hx]
      exact List.mem_cons_self _ _
    | succ k' =>
      have hk' : k' < xs.length := by
        simp only [List.length_cons] at hk
        omega
      have him' : identityMatch (xs.getD k' "") = some cp := him
      have hmem := ih (j + 1) k' cp hk' him'
      have harith : j + 1 + k' = j + (k' + 1) := by omega
      rw [harith] at hmem
      cases hx : identityMatch x with
      | none =>
        rw [entGo, hx]
        exact hmem
      | some cp' =>
        rw [entGo, hx]
        exact List.mem_cons_of_mem _ hmem

/-- Converse of `block_entry_line`: every in-block line that classifies as
an entry is recorded in the entry list. -/
theorem block_entry_exists {b : HostBlock}
    (hents : b.identityFiles = entriesOf b.lines) :
    ∀ k cp, 1 ≤ k → k < b.lines.length →
      identityMatch (b.lines.getD k "") = some cp →
      { lineIndex := k, path := cp.2, isCommented := cp.1,
        fullLine := b.lines.getD k "" } ∈ b.identityFiles := by
  intro k cp h1 hk him
  rw [hents]
  unfold entriesOf
  have hk' : k - 1 < b.lines.tail.length := by
    rw [List.length_tail]
    omega
  have hgd : b.lines.tail.getD (k - 1) "" = b.lines.getD k "" := by
    rw [tail_getD]
    congr 1
    omega
  have hmem := entGo_mem_of_index b.lines.tail 1 (k - 1) cp hk' (by rw [hgd]; exact him)
  have harith : 1 + (k - 1) = k := by omega
  rw [harith, hgd] at hmem
  exact hmem

/-! ## Filter and find helpers -/

theorem find?_eq_head?_filter {α : Type} (p : α → Bool) :
    ∀ l : List α, l.find? p = (l.filter p).head? := by
  intro l
  induction l with
  | nil => rfl
  | cons a t ih =>
    cases ha : p a with
    | true =>
      rw [List.find?_cons_of_pos _ ha, List.filter_cons_of_pos ha]
      rfl
    | false =>
      rw [List.find?_cons_of_neg _ (by simp [ha]), List.filter_cons_of_neg (by simp [ha])]
      exact ih

theorem filter_eq_singleton_of_unique {α : Type} {p : α → Bool} :
    ∀ {l : List α} {x : α}, l.Nodup → x ∈ l → p x = true →
      (∀ y ∈ l, p y = true → y = x) → l.filter p = [x] := by
  intro l
  induction l with
  | nil => intro x _ hx; cases hx
  | cons a t ih =>
    intro x hnd hx hpx huniq
    have hnd' := List.nodup_cons.mp hnd
    rcases List.mem_cons.mp hx with rfl | hmem
    · rw [List.filter_cons_of_pos hpx]
      have hnil : t.filter p = [] := by
        rw [List.filter_eq_nil_iff]
        intro y hy hpy
        have heq := huniq y (List.mem_cons_of_mem _ hy) hpy
        rw [heq] at hy
        exact hnd'.1 hy
      rw [hnil]
    · have hpa : p a = false := by
        cases hpa : p a with
        | false => rfl
        | true =>
          have heq := huniq a (List.mem_cons_self _ _) hpa
          rw [heq] at hnd'
          exact absurd hmem hnd'.1
      rw [List.filter_cons_of_neg (by simp [hpa])]
      exact ih hnd'.2 hmem hpx (fun y hy hpy => huniq y (List.mem_cons_of_mem _ hy) hpy)

/-! ## Transfer of the chain structure along a classification-preserving
line rewrite -/

theorem chainWF_transfer {lines nl : List String}
    (hlen : nl.length = lines.length)
    (hprof : ∀ j, hostMatch (nl.getD j "") = hostMatch (lines.getD j "")) :
    ∀ {i : Nat} {bs : List HostBlock}, ChainWF lines i bs →
      ChainWF nl i (bs.map (fun blk =>
        { blk with
            lines := sliceL nl blk.startLine blk.endLine
            identityFiles := entriesOf (sliceL nl blk.startLine blk.endLine) })) := by
  intro i bs h
  induction h with
  | nil i hfree =>
    refine ChainWF.nil i ?_
    intro j hij hjl
    rw [hprof j]
    exact hfree j hij (by rw [hlen] at hjl; exact hjl)
  | cons i b bs hle hgap hb htail ih =>
    simp only [List.map_cons]
    refine ChainWF.cons i _ _ hle ?_ ?_ ih
    · show hostFree nl i b.startLine
      intro j hij hjb
      rw [hprof j]
      exact hgap j hij hjb
    · exact {
        start_lt_end := hb.start_lt_end
        end_le := by rw [hlen]; exact hb.end_le
        host_at_start := by
          show hostMatch (nl.getD b.startLine "") = some b.hostname
          rw [hprof]
          exact hb.host_at_start
        no_host_inside := by
          show hostFree nl (b.startLine + 1) b.endLine
          intro j h1 h2
          rw [hprof j]
          exact hb.no_host_inside j h1 h2
        end_boundary := by
          rcases hb.end_boundary with h1 | h1
          · exact Or.inl (by rw [hlen]; exact h1)
          · right
            show (hostMatch (nl.getD b.endLine "")).isSome = true
            rw [hprof]
            exact h1
        lines_eq := rfl
        entries_eq := rfl }

/-- A line rewrite that preserves length and per-line `Host` classification
turns the parser output into the blockwise re-derivation from the new
lines. -/
theorem parseBlocks_profile_map {lines nl : List String}
    (hlen : nl.length = lines.length)
    (hprof : ∀ j, hostMatch (nl.getD j "") = hostMatch (lines.getD j "")) :
    parseBlocks nl = (parseBlocks lines).map (fun blk =>
      { blk with
          lines := sliceL nl blk.startLine blk.endLine
          identityFiles := entriesOf (sliceL nl blk.startLine blk.endLine) }) :=
  chainWF_unique (parseBlocks_chainWF nl)
    (chainWF_transfer hlen hprof (parseBlocks_chainWF lines))

/-! ## Claim C1 -/

/-- C1 (counterexample): with a block that declares the same identity file
twice, a successful `ActivateKey` leaves two uncommented entries in the
block resolved for the alias, not exactly one. -/
theorem activation_exclusivity_cex :
    (ActivateKey none (mkConfig ["Host h", "IdentityFile k", "IdentityFile k"]) "h" "k").2 =
      none ∧
    ((FindHostBlock
        (ActivateKey none (mkConfig ["Host h", "IdentityFile k", "IdentityFile k"]) "h" "k").1
        "h").map
      (fun b => (b.identityFiles.filter (fun e => !e.isCommented)).length)) = some 2 := by
  constructor
  · rfl
  · rfl

/-- C1 (amended): when exactly one entry of the block resolved for the alias
has a normalized path equal to the normalized key path, and that entry's
declared path text is nonempty, a successful `ActivateKey` leaves exactly
one uncommented entry in that block, the entry carries the matching path
(normalization-equivalent to the key path), and `GetActiveIdentityFile`
returns that path. -/
theorem activation_exclusivity (home : Option String) (c : ConfigFile) (hwf : WF c)
    (hn keyPath : String) (b : HostBlock) (ent : IdentityFileLine)
    (hfb : FindHostBlock c hn = some b)
    (huniq : b.identityFiles.filter
      (fun e => normalizePath home e.path == normalizePath home keyPath) = [ent])
    (hpne : ent.path ≠ "") :
    (ActivateKey home c hn keyPath).2 = none ∧
    ∃ nb, FindHostBlock (ActivateKey home c hn keyPath).1 hn = some nb ∧
      (nb.identityFiles.filter (fun e => !e.isCommented)).length = 1 ∧
      (∀ e ∈ nb.identityFiles, e.isCommented = false →
        e.path = ent.path ∧ normalizePath home e.path = normalizePath home keyPath) ∧
      GetActiveIdentityFile (ActivateKey home c hn keyPath).1 hn = ent.path ∧
      normalizePath home ent.path = normalizePath home keyPath := by
  obtain ⟨hlt, hle, hhost, hfree, hlines, hents, hhn⟩ := findHostBlock_wf_props hwf hfb
  have hmem_ent : ent ∈ b.identityFiles ∧
      (normalizePath home ent.path == normalizePath home keyPath) = true := by
    have : ent ∈ b.identityFiles.filter
        (fun e => normalizePath home e.path == normalizePath home keyPath) := by
      rw [huniq]
      exact List.mem_cons_self _ _
    exact List.mem_filter.mp this
  have hmatch_ent : normalizePath home ent.path = normalizePath home keyPath := by
    simpa using hmem_ent.2
  have huniq' : ∀ y ∈ b.identityFiles,
      normalizePath home y.path = normalizePath home keyPath → y = ent := by
    intro y hy hyeq
    have : y ∈ b.identityFiles.filter
        (fun e => normalizePath home e.path == normalizePath home keyPath) :=
      List.mem_filter.mpr ⟨hy, by simpa using hyeq⟩
    rw [huniq] at this
    simpa using this
  have hany : b.identityFiles.any
      (fun ifl => normalizePath home ifl.path == normalizePath home keyPath) = true :=
    List.any_eq_true.mpr ⟨ent, hmem_ent.1, hmem_ent.2⟩
  have hidx := entry_global_bounds hlt hle hlines hents
  have hbnd : ∀ e₀ ∈ b.identityFiles, b.startLine + e₀.lineIndex < c.lines.length :=
    fun e₀ he₀ => lt_of_lt_of_le (hidx e₀ he₀).2 hle
  have hentline := block_entry_line hlt hle hlines hents
  obtain ⟨hlen', hout, hin⟩ := @activateRewrites_getD home (normalizePath home keyPath)
    b c.lines (block_entries_sorted hents) hbnd
  have hbll := block_lines_length hle hlines
  -- value of the rewritten sequence at each old entry line
  have hnlval : ∀ e₀ ∈ b.identityFiles,
      (activateRewrites home (normalizePath home keyPath) b c.lines).getD
          (b.startLine + e₀.lineIndex) "" =
        (if normalizePath home e₀.path == normalizePath home keyPath then
          uncommentIdentityFile e₀.fullLine
        else commentIdentityFile e₀.fullLine) := by
    intro e₀ he₀
    rw [hin e₀ he₀, (hentline e₀ he₀).1]
  have hcanon_ent : identityMatch
      ((⟨indentOf ent.fullLine⟩ : String) ++ "IdentityFile " ++ ent.path) =
      some (false, ent.path) := by
    have hprops := identityMatch_path_props (hentline ent hmem_ent.1).2
    refine identityMatch_canonical_uncommented _ _ (indentOf_all_space_tab _) hprops.1
      hprops.2 ?_
    intro hdat
    apply hpne
    apply String.ext
    rw [hdat]
  have huncomment_ent : uncommentIdentityFile ent.fullLine =
      (⟨indentOf ent.fullLine⟩ : String) ++ "IdentityFile " ++ ent.path := by
    unfold uncommentIdentityFile
    rw [(hentline ent hmem_ent.1).2]
  have hcomment_comm : ∀ e₀ ∈ b.identityFiles, e₀.isCommented = true →
      commentIdentityFile e₀.fullLine = e₀.fullLine := by
    intro e₀ he₀ hcm
    unfold commentIdentityFile
    rw [(hentline e₀ he₀).2]
    show (if e₀.isCommented then e₀.fullLine else _) = e₀.fullLine
    rw [hcm, if_pos rfl]
  have hcomment_unc : ∀ e₀ ∈ b.identityFiles, e₀.isCommented = false →
      commentIdentityFile e₀.fullLine =
        (⟨indentOf e₀.fullLine⟩ : String) ++ "# IdentityFile " ++ e₀.path := by
    intro e₀ he₀ hcm
    unfold commentIdentityFile
    rw [(hentline e₀ he₀).2]
    show (if e₀.isCommented then e₀.fullLine else _) = _
    rw [hcm, if_neg (by simp)]
  have hnewval : ∀ e₀ ∈ b.identityFiles, e₀ ≠ ent →
      (activateRewrites home (normalizePath home keyPath) b c.lines).getD
          (b.startLine + e₀.lineIndex) "" = commentIdentityFile e₀.fullLine := by
    intro e₀ he₀ heq
    rw [hnlval e₀ he₀]
    have hne₀ : (normalizePath home e₀.path == normalizePath home keyPath) = false := by
      cases hb₀ : (normalizePath home e₀.path == normalizePath home keyPath) with
      | false => rfl
      | true => exact absurd (huniq' e₀ he₀ (by simpa using hb₀)) heq
    rw [if_neg (by rw [hne₀]; exact Bool.false_ne_true)]
  have hentval : (activateRewrites home (normalizePath home keyPath) b c.lines).getD
      (b.startLine + ent.lineIndex) "" =
      (⟨indentOf ent.fullLine⟩ : String) ++ "IdentityFile " ++ ent.path := by
    rw [hnlval ent hmem_ent.1, if_pos hmem_ent.2, huncomment_ent]
  -- classification of each rewritten entry line
  have hnewclass : ∀ e₀ ∈ b.identityFiles,
      identityMatch ((activateRewrites home (normalizePath home keyPath) b c.lines).getD
          (b.startLine + e₀.lineIndex) "") =
        (if e₀ = ent then some (false, ent.path)
         else if e₀.path = "" ∧ e₀.isCommented = false then none
         else some (true, e₀.path)) := by
    intro e₀ he₀
    by_cases heq : e₀ = ent
    · subst heq
      rw [if_pos rfl, hentval]
      exact hcanon_ent
    · rw [if_neg heq, hnewval e₀ he₀ heq]
      cases hcm : e₀.isCommented with
      | true =>
        rw [hcomment_comm e₀ he₀ hcm, (hentline e₀ he₀).2, hcm]
        rw [if_neg (fun hco => absurd hco.2 (by decide))]
      | false =>
        by_cases hp₀ : e₀.path = ""
        · rw [hcomment_unc e₀ he₀ hcm, hp₀,
            identityMatch_canonical_commented_empty _ (indentOf_all_space_tab _)]
          rw [if_pos ⟨rfl, rfl⟩]
        · rw [hcomment_unc e₀ he₀ hcm]
          have hprops := identityMatch_path_props (hentline e₀ he₀).2
          rw [identityMatch_canonical_commented _ _ (indentOf_all_space_tab _) hprops.1
            hprops.2 (fun hdat => hp₀ (String.ext (by rw [hdat])))]
          rw [if_neg (fun hco => hp₀ hco.1)]
  -- the Host-classification profile is preserved
  have hprof : ∀ j,
      hostMatch ((activateRewrites home (normalizePath home keyPath) b c.lines).getD j "") =
        hostMatch (c.lines.getD j "") := by
    intro j
    by_cases hj : ∃ e₀ ∈ b.identityFiles, b.startLine + e₀.lineIndex = j
    · obtain ⟨e₀, he₀, hje⟩ := hj
      subst hje
      have hb₀ := hidx e₀ he₀
      have hnone : hostMatch (c.lines.getD (b.startLine + e₀.lineIndex) "") = none :=
        hfree (b.startLine + e₀.lineIndex) (by omega) hb₀.2
      rw [hnone, hnlval e₀ he₀]
      cases hc : (normalizePath home e₀.path == normalizePath home keyPath) with
      | true =>
        simp only [if_true]
        unfold uncommentIdentityFile
        rw [(hentline e₀ he₀).2]
        exact hostMatch_canonical_uncommented _ _ (indentOf_all_space_tab _)
      | false =>
        simp only [Bool.false_eq_true, if_false]
        unfold commentIdentityFile
        rw [(hentline e₀ he₀).2]
        cases hcm : e₀.isCommented with
        | true =>
          simp only [if_true]
          rw [← (hentline e₀ he₀).1]
          exact hnone
        | false =>
          simp only [Bool.false_eq_true, if_false]
          exact hostMatch_canonical_commented _ _ (indentOf_all_space_tab _)
    · push_neg at hj
      rw [hout j (fun e₀ he₀ => hj e₀ he₀)]
  -- structure of the re-derived blocks
  have hpbnl : parseBlocks (activateRewrites home (normalizePath home keyPath) b c.lines) =
      c.blocks.map (fun blk =>
        { blk with
            lines := sliceL (activateRewrites home (normalizePath home keyPath) b c.lines)
              blk.startLine blk.endLine
            identityFiles := entriesOf
              (sliceL (activateRewrites home (normalizePath home keyPath) b c.lines)
                blk.startLine blk.endLine) }) := by
    rw [parseBlocks_profile_map hlen' hprof, ← hwf]
  have hres : (ActivateKey home c hn keyPath).1 =
      { c with
          lines := activateRewrites home (normalizePath home keyPath) b c.lines
          blocks := parseBlocks
            (activateRewrites home (normalizePath home keyPath) b c.lines) } := by
    rw [ActivateKey_eq_of_found hfb hany]
  have hfb' : FindHostBlock (ActivateKey home c hn keyPath).1 hn =
      some { b with
          lines := sliceL (activateRewrites home (normalizePath home keyPath) b c.lines)
            b.startLine b.endLine
          identityFiles := entriesOf
            (sliceL (activateRewrites home (normalizePath home keyPath) b c.lines)
              b.startLine b.endLine) } := by
    rw [hres]
    show (parseBlocks (activateRewrites home (normalizePath home keyPath) b c.lines)).find?
      (fun blk => blk.hostname == hn) = _
    rw [hpbnl, List.find?_map]
    have hpred : ((fun blk => blk.hostname == hn) ∘ (fun (blk : HostBlock) =>
        { blk with
            lines := sliceL (activateRewrites home (normalizePath home keyPath) b c.lines)
              blk.startLine blk.endLine
            identityFiles := entriesOf
              (sliceL (activateRewrites home (normalizePath home keyPath) b c.lines)
                blk.startLine blk.endLine) })) =
        (fun (blk : HostBlock) => blk.hostname == hn) := rfl
    rw [hpred]
    show (FindHostBlock c hn).map _ = _
    rw [hfb]
    rfl
  -- the rewritten slice of the targeted block
  have hslice_len : (sliceL (activateRewrites home (normalizePath home keyPath) b c.lines)
      b.startLine b.endLine).length = b.endLine - b.startLine := by
    unfold sliceL
    rw [List.length_take, List.length_drop, hlen']
    omega
  have hslice_getD : ∀ k, k < b.endLine - b.startLine →
      (sliceL (activateRewrites home (normalizePath home keyPath) b c.lines)
        b.startLine b.endLine).getD k "" =
      (activateRewrites home (normalizePath home keyPath) b c.lines).getD
        (b.startLine + k) "" := by
    intro k hk
    exact sliceL_getD hk (by rw [hlen']; exact hle)
  have htail_len : (sliceL (activateRewrites home (normalizePath home keyPath) b c.lines)
      b.startLine b.endLine).tail.length = b.endLine - b.startLine - 1 := by
    rw [List.length_tail, hslice_len]
  have hbndent := entriesOf_mem_bounds (hents ▸ hmem_ent.1)
  have hliE : 1 ≤ ent.lineIndex ∧ ent.lineIndex < b.endLine - b.startLine := by
    rw [hbll] at hbndent
    exact hbndent
  have htg : ∀ k, 1 ≤ k → k < b.endLine - b.startLine →
      (sliceL (activateRewrites home (normalizePath home keyPath) b c.lines)
        b.startLine b.endLine).tail.getD (k - 1) "" =
      (activateRewrites home (normalizePath home keyPath) b c.lines).getD
        (b.startLine + k) "" := by
    intro k h1 h2
    rw [tail_getD]
    have harith : k - 1 + 1 = k := by omega
    rw [harith]
    exact hslice_getD k h2
  -- the canonical entry is recorded in the rewritten block
  have hgdX : (sliceL (activateRewrites home (normalizePath home keyPath) b c.lines)
      b.startLine b.endLine).tail.getD (ent.lineIndex - 1) "" =
      (⟨indentOf ent.fullLine⟩ : String) ++ "IdentityFile " ++ ent.path := by
    rw [htg ent.lineIndex hliE.1 hliE.2]
    exact hentval
  have hmemX : ({ lineIndex := ent.lineIndex
                  path := ent.path
                  isCommented := false
                  fullLine := (⟨indentOf ent.fullLine⟩ : String) ++ "IdentityFile " ++ ent.path } :
      IdentityFileLine) ∈ entriesOf
        (sliceL (activateRewrites home (normalizePath home keyPath) b c.lines)
          b.startLine b.endLine) := by
    have hliX : ent.lineIndex - 1 <
        (sliceL (activateRewrites home (normalizePath home keyPath) b c.lines)
          b.startLine b.endLine).tail.length := by
      rw [htail_len]
      omega
    have h := entGo_mem_of_index
      (sliceL (activateRewrites home (normalizePath home keyPath) b c.lines)
        b.startLine b.endLine).tail 1 (ent.lineIndex - 1) (false, ent.path)
      hliX (by rw [hgdX]; exact hcanon_ent)
    have harith : 1 + (ent.lineIndex - 1) = ent.lineIndex := by omega
    rw [harith, hgdX] at h
    exact h
  -- every uncommented entry of the rewritten block is the canonical one
  have huniqY : ∀ y ∈ entriesOf
      (sliceL (activateRewrites home (normalizePath home keyPath) b c.lines)
        b.startLine b.endLine), y.isCommented = false →
      y = { lineIndex := ent.lineIndex
            path := ent.path
            isCommented := false
            fullLine := (⟨indentOf ent.fullLine⟩ : String) ++ "IdentityFile " ++ ent.path } := by
    intro y hy hyc
    have hbndY := entGo_mem_bounds _ 1 y hy
    obtain ⟨hgdY, himY⟩ := entGo_mem_line _ 1 y hy
    rw [htail_len] at hbndY
    have hyib : 1 ≤ y.lineIndex ∧ y.lineIndex < b.endLine - b.startLine := by omega
    rw [htg y.lineIndex hyib.1 hyib.2] at hgdY
    by_cases hex : ∃ e₀ ∈ b.identityFiles, e₀.lineIndex = y.lineIndex
    · obtain ⟨e₀, he₀, hle₀⟩ := hex
      have hcls := hnewclass e₀ he₀
      rw [hle₀, hgdY, himY] at hcls
      by_cases heq : e₀ = ent
      · rw [if_pos heq] at hcls
        have hinj := Option.some.inj hcls
        have hyc2 : y.isCommented = false := congrArg Prod.fst hinj
        have hyp : y.path = ent.path := congrArg Prod.snd hinj
        have hyl : y.lineIndex = ent.lineIndex := by rw [← hle₀, heq]
        have hyf : y.fullLine =
            (⟨indentOf ent.fullLine⟩ : String) ++ "IdentityFile " ++ ent.path := by
          rw [← hgdY, hyl]
          exact hentval
        obtain ⟨yl, yp, yc, yf⟩ := y
        simp only [IdentityFileLine.mk.injEq]
        exact ⟨hyl, hyp, hyc2, hyf⟩
      · rw [if_neg heq] at hcls
        by_cases hcond : e₀.path = "" ∧ e₀.isCommented = false
        · rw [if_pos hcond] at hcls
          cases hcls
        · rw [if_neg hcond] at hcls
          have hinj := Option.some.inj hcls
          have : y.isCommented = true := congrArg Prod.fst hinj
          rw [hyc] at this
          cases this
    · push_neg at hex
      have hnoent : ∀ e₀ ∈ b.identityFiles,
          b.startLine + e₀.lineIndex ≠ b.startLine + y.lineIndex :=
        fun e₀ he₀ h => hex e₀ he₀ (by omega)
      rw [hout _ hnoent] at hgdY
      have hbsl : c.lines.getD (b.startLine + y.lineIndex) "" =
          b.lines.getD y.lineIndex "" := by
        rw [hlines, sliceL_getD (by omega) hle]
      rw [hbsl] at hgdY
      have him2 : identityMatch (b.lines.getD y.lineIndex "") =
          some (y.isCommented, y.path) := by
        rw [hgdY]
        exact himY
      have hcontra := block_entry_exists hents y.lineIndex (y.isCommented, y.path)
        hyib.1 (by rw [hbll]; exact hyib.2) him2
      have hlx := hex _ hcontra
      exact absurd rfl hlx
  have hnodupY : (entriesOf
      (sliceL (activateRewrites home (normalizePath home keyPath) b c.lines)
        b.startLine b.endLine)).Nodup := by
    have hs := entGo_sorted
      (sliceL (activateRewrites home (normalizePath home keyPath) b c.lines)
        b.startLine b.endLine).tail 1
    exact hs.imp (fun hab heq => by rw [heq] at hab; exact lt_irrefl _ hab)
  have hfilter : (entriesOf
      (sliceL (activateRewrites home (normalizePath home keyPath) b c.lines)
        b.startLine b.endLine)).filter (fun e => !e.isCommented) =
      [{ lineIndex := ent.lineIndex
         path := ent.path
         isCommented := false
         fullLine := (⟨indentOf ent.fullLine⟩ : String) ++ "IdentityFile " ++ ent.path }] := by
    refine filter_eq_singleton_of_unique hnodupY hmemX rfl ?_
    intro y hy hpy
    exact huniqY y hy (by simpa using hpy)
  refine ⟨by rw [ActivateKey_eq_of_found hfb hany],
    ⟨{ b with
        lines := sliceL (activateRewrites home (normalizePath home keyPath) b c.lines)
          b.startLine b.endLine
        identityFiles := entriesOf
          (sliceL (activateRewrites home (normalizePath home keyPath) b c.lines)
            b.startLine b.endLine) }, hfb', ?_, ?_, ?_, hmatch_ent⟩⟩
  · show ((entriesOf
      (sliceL (activateRewrites home (normalizePath home keyPath) b c.lines)
        b.startLine b.endLine)).filter (fun e => !e.isCommented)).length = 1
    rw [hfilter]
    rfl
  · intro e he hec
    have heq := huniqY e he hec
    subst heq
    exact ⟨rfl, hmatch_ent⟩
  · unfold GetActiveIdentityFile
    rw [hfb']
    show (match (entriesOf
        (sliceL (activateRewrites home (normalizePath home keyPath) b c.lines)
          b.startLine b.endLine)).find? (fun ifl => !ifl.isCommented) with
      | some ifl => ifl.path
      | none => "") = ent.path
    rw [find?_eq_head?_filter, hfilter]
    rfl

/-- Witness for the amended C1 statement: on a block for host `h` holding an
uncommented entry `k` and a commented entry `j`, activating `k` succeeds,
exactly one entry is uncommented afterwards, its path is `k`, and
`GetActiveIdentityFile` returns `k`. -/
theorem activation_exclusivity_w :
    (ActivateKey none (mkConfig ["Host h", "    IdentityFile k", "    # IdentityFile j"])
        "h" "k").2 = none ∧
    ∃ nb, FindHostBlock (ActivateKey none
        (mkConfig ["Host h", "    IdentityFile k", "    # IdentityFile j"]) "h" "k").1 "h" =
        some nb ∧
      (nb.identityFiles.filter (fun e => !e.isCommented)).length = 1 ∧
      (∀ e ∈ nb.identityFiles, e.isCommented = false →
        e.path = "k" ∧ normalizePath none e.path = normalizePath none "k") ∧
      GetActiveIdentityFile (ActivateKey none
        (mkConfig ["Host h", "    IdentityFile k", "    # IdentityFile j"]) "h" "k").1 "h" =
        "k" ∧
      normalizePath none "k" = normalizePath none "k" :=
  activation_exclusivity none
    (mkConfig ["Host h", "    IdentityFile k", "    # IdentityFile j"]) rfl "h" "k"
    { startLine := 0
      endLine := 3
      hostname := "h"
      lines := ["Host h", "    IdentityFile k", "    # IdentityFile j"]
      identityFiles :=
        [{ lineIndex := 1, path := "k", isCommented := false, fullLine := "    IdentityFile k" },
         { lineIndex := 2, path := "j", isCommented := true, fullLine := "    # IdentityFile j" }] }
    { lineIndex := 1, path := "k", isCommented := false, fullLine := "    IdentityFile k" }
    (by decide) (by decide) (by decide)

/-! ## Effect of a single-line insertion on the parsed block structure -/

/-- The line sequence produced by the insertion of `AddIdentityFile`: the new
line `w` is spliced in at index `p`. -/
def insertL (lines : List String) (p : Nat) (w : String) : List String :=
  lines.take p ++ w :: lines.drop p

theorem insertL_length {lines : List String} {p : Nat} {w : String}
    (hp : p ≤ lines.length) : (insertL lines p w).length = lines.length + 1 := by
  unfold insertL
  rw [List.length_append, List.length_take, List.length_cons, List.length_drop]
  omega

theorem insertL_getD_lt {lines : List String} {p : Nat} {w : String} {j : Nat}
    (hp : p ≤ lines.length) (hj : j < p) :
    (insertL lines p w).getD j "" = lines.getD j "" := by
  unfold insertL
  rw [List.getD_eq_getElem?_getD, List.getD_eq_getElem?_getD]
  rw [List.getElem?_append,
    if_pos (show j < (lines.take p).length by rw [List.length_take]; omega),
    List.getElem?_take_of_lt hj]

theorem insertL_drop_eq {lines : List String} {p : Nat} {w : String}
    (hp : p ≤ lines.length) : (insertL lines p w).drop p = w :: lines.drop p := by
  unfold insertL
  have hlen : (lines.take p).length = p := by rw [List.length_take]; omega
  rw [List.drop_append_eq_append_drop, hlen, List.drop_of_length_le (le_of_eq hlen),
    Nat.sub_self, List.nil_append, List.drop_zero]

theorem insertL_getD_self {lines : List String} {p : Nat} {w : String}
    (hp : p ≤ lines.length) : (insertL lines p w).getD p "" = w := by
  have h0 : ((insertL lines p w).drop p)[0]? = some w := by
    rw [insertL_drop_eq hp]
    simp
  rw [List.getElem?_drop, Nat.add_zero] at h0
  rw [List.getD_eq_getElem?_getD, h0]
  rfl

theorem insertL_drop_succ {lines : List String} {p : Nat} {w : String}
    (hp : p ≤ lines.length) : (insertL lines p w).drop (p + 1) = lines.drop p := by
  have h := congrArg (List.drop 1) (@insertL_drop_eq lines p w hp)
  rw [List.drop_drop] at h
  exact h

theorem insertL_getD_ge {lines : List String} {p : Nat} {w : String} {j : Nat}
    (hp : p ≤ lines.length) (hj : p ≤ j) :
    (insertL lines p w).getD (j + 1) "" = lines.getD j "" := by
  have h1 : ((insertL lines p w).drop (p + 1))[j - p]? = (lines.drop p)[j - p]? := by
    rw [insertL_drop_succ hp]
  rw [List.getElem?_drop, List.getElem?_drop] at h1
  have h2 : p + 1 + (j - p) = j + 1 := by omega
  have h3 : p + (j - p) = j := by omega
  rw [h2, h3] at h1
  rw [List.getD_eq_getElem?_getD, List.getD_eq_getElem?_getD, h1]

theorem insertL_sliceL_shift {lines : List String} {p : Nat} {w : String} {s e : Nat}
    (hp : p ≤ lines.length) (hs : p ≤ s) :
    sliceL (insertL lines p w) (s + 1) (e + 1) = sliceL lines s e := by
  unfold sliceL
  have hdrop : (insertL lines p w).drop (s + 1) = lines.drop s := by
    have h2 : s + 1 = (p + 1) + (s - p) := by omega
    rw [h2, ← List.drop_drop, insertL_drop_succ hp, List.drop_drop]
    congr 1
    omega
  rw [hdrop]
  congr 1
  omega

theorem insertL_take_eq {lines : List String} {p : Nat} {w : String}
    (hp : p ≤ lines.length) : (insertL lines p w).take p = lines.take p := by
  unfold insertL
  have hlen : (lines.take p).length = p := by rw [List.length_take]; omega
  rw [List.take_append_eq_append_take, hlen, Nat.sub_self, List.take_zero,
    List.append_nil, List.take_of_length_le (le_of_eq hlen)]

theorem insertL_sliceL_front {lines : List String} {p : Nat} {w : String} {s e : Nat}
    (hp : p ≤ lines.length) (he : e ≤ p) :
    sliceL (insertL lines p w) s e = sliceL lines s e := by
  have htake : (insertL lines p w).take e = lines.take e := by
    have h1 : (insertL lines p w).take e = ((insertL lines p w).take p).take e := by
      rw [List.take_take, Nat.min_eq_left he]
    rw [h1, insertL_take_eq hp, List.take_take, Nat.min_eq_left he]
  unfold sliceL
  rw [← List.drop_take, ← List.drop_take, htake]

/-- Translation of a block lying entirely after the insertion point. -/
def shiftBlock (blk : HostBlock) : HostBlock :=
  { blk with
      startLine := blk.startLine + 1
      endLine := blk.endLine + 1 }

/-- How each parsed block is transformed by the insertion of one non-`Host`
line at index `p`: blocks before the insertion point are unchanged, the block
holding the insertion point is extended by one line, and blocks after it are
shifted down by one line. -/
def insBlockMap (p : Nat) (nl : List String) (blk : HostBlock) : HostBlock :=
  if blk.endLine < p then blk
  else if blk.startLine < p then
    { blk with
        endLine := blk.endLine + 1
        lines := sliceL nl blk.startLine (blk.endLine + 1)
        identityFiles := entriesOf (sliceL nl blk.startLine (blk.endLine + 1)) }
  else shiftBlock blk

theorem insBlockMap_hostname (p : Nat) (nl : List String) (blk : HostBlock) :
    (insBlockMap p nl blk).hostname = blk.hostname := by
  unfold insBlockMap
  split
  · rfl
  · split
    · rfl
    · rfl

theorem hostFree_shift {lines : List String} {p : Nat} {w : String} {a b : Nat}
    (hp : p ≤ lines.length) (hf : hostFree lines a b) (hpa : p ≤ a) :
    hostFree (insertL lines p w) (a + 1) (b + 1) := by
  intro j hij hjl
  have hj1 : j = (j - 1) + 1 := by omega
  rw [hj1, insertL_getD_ge hp (by omega)]
  exact hf (j - 1) (by omega) (by omega)

theorem hostFree_insert {lines : List String} {p : Nat} {w : String} {a b : Nat}
    (hp : p ≤ lines.length) (hw : hostMatch w = none) (hf : hostFree lines a b)
    (hap : a ≤ p) (hpb : p ≤ b) :
    hostFree (insertL lines p w) a (b + 1) := by
  intro j hij hjl
  rcases Nat.lt_trichotomy j p with hlt | heq | hgt
  · rw [insertL_getD_lt hp hlt]
    exact hf j hij (by omega)
  · rw [heq, insertL_getD_self hp]
    exact hw
  · have hj1 : j = (j - 1) + 1 := by omega
    rw [hj1, insertL_getD_ge hp (by omega)]
    exact hf (j - 1) (by omega) (by omega)

theorem hostFree_prefix {lines : List String} {p : Nat} {w : String} {a b : Nat}
    (hp : p ≤ lines.length) (hf : hostFree lines a b) (hbp : b ≤ p) :
    hostFree (insertL lines p w) a b := by
  intro j hij hjl
  rw [insertL_getD_lt hp (by omega)]
  exact hf j hij hjl

theorem blockWF_shift {lines : List String} {p : Nat} {w : String} {b : HostBlock}
    (hp : p ≤ lines.length) (hb : BlockWF lines b) (hps : p ≤ b.startLine) :
    BlockWF (insertL lines p w) (shiftBlock b) := by
  have hlt := hb.start_lt_end
  have hle := hb.end_le
  refine ⟨?_, ?_, ?_, ?_, ?_, ?_, ?_⟩
  · show b.startLine + 1 < b.endLine + 1
    omega
  · show b.endLine + 1 ≤ (insertL lines p w).length
    rw [insertL_length hp]
    omega
  · show hostMatch ((insertL lines p w).getD (b.startLine + 1) "") = some b.hostname
    rw [insertL_getD_ge hp hps]
    exact hb.host_at_start
  · show hostFree (insertL lines p w) (b.startLine + 1 + 1) (b.endLine + 1)
    exact hostFree_shift hp hb.no_host_inside (by omega)
  · show b.endLine + 1 = (insertL lines p w).length ∨
      (hostMatch ((insertL lines p w).getD (b.endLine + 1) "")).isSome = true
    rcases hb.end_boundary with heq | hsome
    · left
      rw [insertL_length hp, heq]
    · right
      rw [insertL_getD_ge hp (by omega)]
      exact hsome
  · show b.lines = sliceL (insertL lines p w) (b.startLine + 1) (b.endLine + 1)
    rw [insertL_sliceL_shift hp hps]
    exact hb.lines_eq
  · show b.identityFiles = entriesOf b.lines
    exact hb.entries_eq

theorem chainWF_shift {lines : List String} {p : Nat} {w : String}
    (hp : p ≤ lines.length) :
    ∀ {i : Nat} {bs : List HostBlock}, ChainWF lines i bs → p ≤ i →
      ChainWF (insertL lines p w) (i + 1) (bs.map shiftBlock) := by
  intro i bs h
  induction h with
  | nil i hfree =>
    intro hpi
    refine ChainWF.nil (i + 1) ?_
    have hf := @hostFree_shift lines p w i lines.length hp hfree hpi
    intro j hij hjl
    rw [insertL_length hp] at hjl
    exact hf j hij hjl
  | cons i b bs hle hgap hb htail ih =>
    intro hpi
    simp only [List.map_cons]
    refine ChainWF.cons (i + 1) _ _ (show i + 1 ≤ b.startLine + 1 by omega) ?_ ?_ ?_
    · show hostFree (insertL lines p w) (i + 1) (b.startLine + 1)
      exact hostFree_shift hp hgap hpi
    · exact blockWF_shift hp hb (by omega)
    · show ChainWF (insertL lines p w) (b.endLine + 1) (bs.map shiftBlock)
      exact ih (by have := hb.start_lt_end; omega)

/-- On the tail of a chain that lies entirely past the insertion point the
insertion map is a pure shift. -/
theorem insBlockMap_eq_shift_on {lines nl : List String} {p e : Nat} {bs : List HostBlock}
    (htail : ChainWF lines e bs) (hpe : p ≤ e) :
    bs.map (insBlockMap p nl) = bs.map shiftBlock := by
  refine List.map_congr_left ?_
  intro blk hblk
  obtain ⟨h1, h2, _⟩ := (chainWF_props htail).2 blk hblk
  unfold insBlockMap
  rw [if_neg (by omega), if_neg (by omega)]

/-- Inserting one non-`Host` line at index `p` transforms a well-formed chain
by `insBlockMap`: blocks before `p` are unchanged, the block holding `p` (if
any) grows by one line, blocks after `p` shift down by one. -/
theorem chainWF_insert {lines : List String} {p : Nat} {w : String}
    (hp : p ≤ lines.length) (hw : hostMatch w = none) :
    ∀ {i : Nat} {bs : List HostBlock}, ChainWF lines i bs → i ≤ p →
      ChainWF (insertL lines p w) i (bs.map (insBlockMap p (insertL lines p w))) := by
  intro i bs h
  induction h with
  | nil i hfree =>
    intro hip
    refine ChainWF.nil i ?_
    have hf := hostFree_insert hp hw hfree hip hp
    intro j hij hjl
    rw [insertL_length hp] at hjl
    exact hf j hij hjl
  | cons i b bs hle hgap hb htail ih =>
    intro hip
    simp only [List.map_cons]
    have hlt := hb.start_lt_end
    have hble := hb.end_le
    by_cases hep : b.endLine < p
    · have hmap : insBlockMap p (insertL lines p w) b = b := by
        unfold insBlockMap
        rw [if_pos hep]
      rw [hmap]
      refine ChainWF.cons i b _ hle ?_ ?_ ?_
      · exact hostFree_prefix hp hgap (by omega)
      · refine ⟨hb.start_lt_end, ?_, ?_, ?_, ?_, ?_, hb.entries_eq⟩
        · rw [insertL_length hp]
          omega
        · rw [insertL_getD_lt hp (by omega)]
          exact hb.host_at_start
        · exact hostFree_prefix hp hb.no_host_inside (by omega)
        · rcases hb.end_boundary with heq | hsome
          · exfalso
            omega
          · right
            rw [insertL_getD_lt hp hep]
            exact hsome
        · rw [insertL_sliceL_front hp (by omega)]
          exact hb.lines_eq
      · exact ih (by omega)
    · by_cases hsp : b.startLine < p
      · have hmap : insBlockMap p (insertL lines p w) b =
            { b with
                endLine := b.endLine + 1
                lines := sliceL (insertL lines p w) b.startLine (b.endLine + 1)
                identityFiles := entriesOf
                  (sliceL (insertL lines p w) b.startLine (b.endLine + 1)) } := by
          unfold insBlockMap
          rw [if_neg hep, if_pos hsp]
        rw [hmap]
        refine ChainWF.cons i _ _ (show i ≤ b.startLine from hle) ?_ ?_ ?_
        · show hostFree (insertL lines p w) i b.startLine
          exact hostFree_prefix hp hgap (by omega)
        · refine ⟨?_, ?_, ?_, ?_, ?_, rfl, rfl⟩
          · show b.startLine < b.endLine + 1
            omega
          · show b.endLine + 1 ≤ (insertL lines p w).length
            rw [insertL_length hp]
            omega
          · show hostMatch ((insertL lines p w).getD b.startLine "") = some b.hostname
            rw [insertL_getD_lt hp hsp]
            exact hb.host_at_start
          · show hostFree (insertL lines p w) (b.startLine + 1) (b.endLine + 1)
            exact hostFree_insert hp hw hb.no_host_inside (by omega) (by omega)
          · show b.endLine + 1 = (insertL lines p w).length ∨
              (hostMatch ((insertL lines p w).getD (b.endLine + 1) "")).isSome = true
            rcases hb.end_boundary with heq | hsome
            · left
              rw [insertL_length hp, heq]
            · right
              rw [insertL_getD_ge hp (by omega)]
              exact hsome
        · show ChainWF (insertL lines p w) (b.endLine + 1)
            (bs.map (insBlockMap p (insertL lines p w)))
          rw [insBlockMap_eq_shift_on htail (by omega)]
          exact chainWF_shift hp htail (by omega)
      · have hmap : insBlockMap p (insertL lines p w) b = shiftBlock b := by
          unfold insBlockMap
          rw [if_neg hep, if_neg hsp]
        rw [hmap]
        refine ChainWF.cons i _ _ (show i ≤ b.startLine + 1 by omega) ?_ ?_ ?_
        · show hostFree (insertL lines p w) i (b.startLine + 1)
          exact hostFree_insert hp hw hgap (by omega) (by omega)
        · exact blockWF_shift hp hb (by omega)
        · show ChainWF (insertL lines p w) (b.endLine + 1)
            (bs.map (insBlockMap p (insertL lines p w)))
          rw [insBlockMap_eq_shift_on htail (by omega)]
          exact chainWF_shift hp htail (by omega)

/-- The parser output of the spliced line sequence is the insertion image of
the original parser output. -/
theorem parseBlocks_insert {lines : List String} {p : Nat} {w : String}
    (hp : p ≤ lines.length) (hw : hostMatch w = none) :
    parseBlocks (insertL lines p w) =
      (parseBlocks lines).map (insBlockMap p (insertL lines p w)) :=
  chainWF_unique (parseBlocks_chainWF _)
    (chainWF_insert hp hw (parseBlocks_chainWF lines) (Nat.zero_le p))

/-- The indentation detected from a block consists of spaces and tabs only. -/
theorem detectIndentGo_all_space_tab : ∀ ls : List String,
    ∀ ch ∈ (detectIndentGo ls).data, (ch = ' ' || ch = '\t') = true := by
  intro ls
  induction ls with
  | nil =>
    intro ch hch
    have hall : ∀ ch ∈ (detectIndentGo []).data, (ch = ' ' || ch = '\t') = true := by decide
    exact hall ch hch
  | cons l rest ih =>
    intro ch hch
    have heq : detectIndentGo (l :: rest) =
        if (⟨l.data.dropWhile (fun ch => ch = ' ' || ch = '\t')⟩ : String) ≠ "" ∧
           (⟨l.data.dropWhile (fun ch => ch = ' ' || ch = '\t')⟩ : String) ≠ l
        then ⟨indentOf l⟩ else detectIndentGo rest := rfl
    rw [heq] at hch
    by_cases hcond : (⟨l.data.dropWhile (fun ch => ch = ' ' || ch = '\t')⟩ : String) ≠ "" ∧
        (⟨l.data.dropWhile (fun ch => ch = ' ' || ch = '\t')⟩ : String) ≠ l
    · rw [if_pos hcond] at hch
      exact indentOf_all_space_tab l ch hch
    · rw [if_neg hcond] at hch
      exact ih ch hch

theorem detectIndent_all_space_tab (ls : List String) :
    ∀ ch ∈ (detectIndent ls).data, (ch = ' ' || ch = '\t') = true :=
  detectIndentGo_all_space_tab ls.tail

/-- The line inserted by `AddIdentityFile` is never a `Host` declaration. -/
theorem addNewLine_hostMatch (keyPath : String) (active : Bool) (b : HostBlock) :
    hostMatch (addNewLine keyPath active b) = none := by
  unfold addNewLine
  cases active with
  | true =>
    rw [if_pos rfl]
    exact hostMatch_canonical_uncommented (detectIndent b.lines).data keyPath
      (detectIndent_all_space_tab b.lines)
  | false =>
    rw [if_neg (by simp)]
    exact hostMatch_canonical_commented (detectIndent b.lines).data keyPath
      (detectIndent_all_space_tab b.lines)

/-- The line inserted by `AddIdentityFile` re-parses as an entry carrying the
literal `keyPath` when the path is trim-stable, newline-free and nonempty. -/
theorem addNewLine_identityMatch (keyPath : String) (active : Bool) (b : HostBlock)
    (hstable : trimBoth goSpace keyPath.data = keyPath.data)
    (hnl : '\n' ∈ keyPath.data → False) (hne : keyPath.data ≠ []) :
    identityMatch (addNewLine keyPath active b) = some (!active, keyPath) := by
  unfold addNewLine
  cases active with
  | true =>
    rw [if_pos rfl]
    exact identityMatch_canonical_uncommented (detectIndent b.lines).data keyPath
      (detectIndent_all_space_tab b.lines) hstable hnl hne
  | false =>
    rw [if_neg (by simp)]
    exact identityMatch_canonical_commented (detectIndent b.lines).data keyPath
      (detectIndent_all_space_tab b.lines) hstable hnl hne

/-- The insertion index of `AddIdentityFile` lies strictly inside the block's
half-open range extended to its end: after the `Host` line and at most at the
block's end. -/
theorem addInsertIdx_bounds {lines : List String} {b : HostBlock}
    (hlt : b.startLine < b.endLine) (hle : b.endLine ≤ lines.length)
    (hlines : b.lines = sliceL lines b.startLine b.endLine)
    (hents : b.identityFiles = entriesOf b.lines) :
    b.startLine < addInsertIdx b ∧ addInsertIdx b ≤ b.endLine := by
  unfold addInsertIdx
  cases hlast : b.identityFiles.getLast? with
  | none =>
    show b.startLine < b.startLine + 1 ∧ b.startLine + 1 ≤ b.endLine
    omega
  | some lastIF =>
    show b.startLine < b.startLine + lastIF.lineIndex + 1 ∧
      b.startLine + lastIF.lineIndex + 1 ≤ b.endLine
    have hmem : lastIF ∈ b.identityFiles := by
      obtain ⟨l', hl'⟩ := List.getLast?_eq_some_iff.mp hlast
      rw [hl']
      simp
    have hbnd := entriesOf_mem_bounds (hents ▸ hmem)
    have hbll := block_lines_length hle hlines
    rw [hbll] at hbnd
    omega

/-! ## Claim C5 -/

/-- C5 counterexample: with the keyPath `" k"` (leading space) the first
`AddIdentityFile` call succeeds and inserts a line, but the inserted line
re-parses with path `"k"`, whose normalization differs from that of `" k"`;
a second call with identical arguments therefore inserts again and the line
sequences differ, refuting idempotence for arbitrary keyPaths. -/
theorem addIdentityFile_idempotent_cex :
    (AddIdentityFile none (mkConfig ["Host h"]) "h" " k" true).2 = none ∧
    (AddIdentityFile none (AddIdentityFile none (mkConfig ["Host h"]) "h" " k" true).1
        "h" " k" true).1.lines ≠
      (AddIdentityFile none (mkConfig ["Host h"]) "h" " k" true).1.lines := by
  refine ⟨rfl, ?_⟩
  decide

/-- C5 (amended): when the keyPath is trim-stable, nonempty and free of
newline characters, `AddIdentityFile` is idempotent: an entry whose
normalized path equals the normalized keyPath makes the call a successful
no-op, and after any successful call a second call with identical arguments
is a successful no-op leaving the configuration byte-identical. -/
theorem addIdentityFile_idempotent (home : Option String) (c : ConfigFile) (hwf : WF c)
    (hn keyPath : String) (active : Bool)
    (hstable : trimBoth goSpace keyPath.data = keyPath.data)
    (hne : keyPath.data ≠ [])
    (hnlf : '\n' ∈ keyPath.data → False)
    (hsucc : (AddIdentityFile home c hn keyPath active).2 = none) :
    (∀ b, FindHostBlock c hn = some b →
      b.identityFiles.any
        (fun ifl => normalizePath home ifl.path == normalizePath home keyPath) = true →
      AddIdentityFile home c hn keyPath active = (c, none)) ∧
    AddIdentityFile home (AddIdentityFile home c hn keyPath active).1 hn keyPath active =
      ((AddIdentityFile home c hn keyPath active).1, none) := by
  refine ⟨fun b hfb hany => AddIdentityFile_eq_of_exists hfb hany, ?_⟩
  cases hfb : FindHostBlock c hn with
  | none =>
    rw [AddIdentityFile_eq_of_none hfb] at hsucc
    simp at hsucc
  | some b =>
    cases hany : b.identityFiles.any
        (fun ifl => normalizePath home ifl.path == normalizePath home keyPath) with
    | true =>
      rw [AddIdentityFile_eq_of_exists hfb hany]
      exact AddIdentityFile_eq_of_exists hfb hany
    | false =>
      obtain ⟨hlt, hle, hhost, hfree, hlines, hents, hhn⟩ := findHostBlock_wf_props hwf hfb
      have hpb := addInsertIdx_bounds hlt hle hlines hents
      have hplen : addInsertIdx b ≤ c.lines.length := le_trans hpb.2 hle
      have hwhm : hostMatch (addNewLine keyPath active b) = none :=
        addNewLine_hostMatch keyPath active b
      have hres := @AddIdentityFile_eq_of_insert home c hn keyPath active b hfb hany
      have hpbmap : parseBlocks (insertL c.lines (addInsertIdx b) (addNewLine keyPath active b)) =
          (parseBlocks c.lines).map
            (insBlockMap (addInsertIdx b)
              (insertL c.lines (addInsertIdx b) (addNewLine keyPath active b))) :=
        parseBlocks_insert hplen hwhm
      have hfb' : FindHostBlock
          { c with
              lines := insertL c.lines (addInsertIdx b) (addNewLine keyPath active b)
              blocks := parseBlocks
                (insertL c.lines (addInsertIdx b) (addNewLine keyPath active b)) } hn =
          some (insBlockMap (addInsertIdx b)
            (insertL c.lines (addInsertIdx b) (addNewLine keyPath active b)) b) := by
        show (parseBlocks
            (insertL c.lines (addInsertIdx b) (addNewLine keyPath active b))).find?
          (fun blk => blk.hostname == hn) = _
        rw [hpbmap, List.find?_map]
        have hpred : ((fun blk => blk.hostname == hn) ∘
            insBlockMap (addInsertIdx b)
              (insertL c.lines (addInsertIdx b) (addNewLine keyPath active b))) =
            (fun (blk : HostBlock) => blk.hostname == hn) := by
          funext blk
          show ((insBlockMap (addInsertIdx b)
              (insertL c.lines (addInsertIdx b) (addNewLine keyPath active b)) blk).hostname ==
            hn) = (blk.hostname == hn)
          rw [insBlockMap_hostname]
        rw [hpred, ← hwf]
        show (FindHostBlock c hn).map _ = _
        rw [hfb]
        rfl
      have hmapb : insBlockMap (addInsertIdx b)
          (insertL c.lines (addInsertIdx b) (addNewLine keyPath active b)) b =
          { b with
              endLine := b.endLine + 1
              lines := sliceL
                (insertL c.lines (addInsertIdx b) (addNewLine keyPath active b))
                b.startLine (b.endLine + 1)
              identityFiles := entriesOf (sliceL
                (insertL c.lines (addInsertIdx b) (addNewLine keyPath active b))
                b.startLine (b.endLine + 1)) } := by
        unfold insBlockMap
        rw [if_neg (by omega), if_pos hpb.1]
      have hq2 : addInsertIdx b - b.startLine < b.endLine + 1 - b.startLine := by omega
      have hslen : (sliceL (insertL c.lines (addInsertIdx b) (addNewLine keyPath active b))
          b.startLine (b.endLine + 1)).length = b.endLine + 1 - b.startLine := by
        unfold sliceL
        rw [List.length_take, List.length_drop, insertL_length hplen]
        omega
      have hgdq : (sliceL (insertL c.lines (addInsertIdx b) (addNewLine keyPath active b))
          b.startLine (b.endLine + 1)).tail.getD (addInsertIdx b - b.startLine - 1) "" =
          addNewLine keyPath active b := by
        rw [tail_getD]
        have harith : addInsertIdx b - b.startLine - 1 + 1 = addInsertIdx b - b.startLine := by
          omega
        rw [harith, sliceL_getD hq2 (by rw [insertL_length hplen]; omega)]
        have harith2 : b.startLine + (addInsertIdx b - b.startLine) = addInsertIdx b := by
          omega
        rw [harith2]
        exact insertL_getD_self hplen
      have him : identityMatch (addNewLine keyPath active b) = some (!active, keyPath) :=
        addNewLine_identityMatch keyPath active b hstable hnlf hne
      have hmemX : ({ lineIndex := addInsertIdx b - b.startLine
                      path := keyPath
                      isCommented := !active
                      fullLine := addNewLine keyPath active b } : IdentityFileLine) ∈
          entriesOf (sliceL (insertL c.lines (addInsertIdx b) (addNewLine keyPath active b))
            b.startLine (b.endLine + 1)) := by
        have hklt : addInsertIdx b - b.startLine - 1 <
            (sliceL (insertL c.lines (addInsertIdx b) (addNewLine keyPath active b))
              b.startLine (b.endLine + 1)).tail.length := by
          rw [List.length_tail, hslen]
          omega
        have h := entGo_mem_of_index
          (sliceL (insertL c.lines (addInsertIdx b) (addNewLine keyPath active b))
            b.startLine (b.endLine + 1)).tail 1
          (addInsertIdx b - b.startLine - 1) (!active, keyPath) hklt
          (by rw [hgdq]; exact him)
        have harith : 1 + (addInsertIdx b - b.startLine - 1) =
            addInsertIdx b - b.startLine := by omega
        rw [harith, hgdq] at h
        exact h
      have hany' : ((insBlockMap (addInsertIdx b)
          (insertL c.lines (addInsertIdx b) (addNewLine keyPath active b)) b).identityFiles.any
          (fun ifl => normalizePath home ifl.path == normalizePath home keyPath)) = true := by
        rw [hmapb]
        refine List.any_eq_true.mpr ⟨_, hmemX, ?_⟩
        show (normalizePath home keyPath == normalizePath home keyPath) = true
        exact beq_self_eq_true _
      rw [hres]
      exact AddIdentityFile_eq_of_exists hfb' hany'

/-- Witness for the amended C5 statement: adding the key `k` to a block that
lacks it succeeds, and the second identical call is a successful no-op. -/
theorem splitOnChar_sepFree {sep : Char} : ∀ {l : List Char}, sep ∉ l →
    splitOnChar sep l = [l] := by
  intro l
  induction l with
  | nil => intro _; rfl
  | cons c cs ih =>
    intro h
    have hc : ¬c = sep := fun hce => h (hce ▸ List.mem_cons_self c cs)
    have hcs : sep ∉ cs := fun hm => h (List.mem_cons_of_mem c hm)
    simp only [splitOnChar]
    rw [if_neg hc, ih hcs]

theorem splitOnChar_append_sep {sep : Char} : ∀ {l : List Char} (rest : List Char),
    sep ∉ l → splitOnChar sep (l ++ sep :: rest) = l :: splitOnChar sep rest := by
  intro l
  induction l with
  | nil =>
    intro rest _
    simp [splitOnChar]
  | cons c cs ih =>
    intro rest h
    have hc : ¬c = sep := fun hce => h (hce ▸ List.mem_cons_self c cs)
    have hcs : sep ∉ cs := fun hm => h (List.mem_cons_of_mem c hm)
    simp only [List.cons_append, splitOnChar, List.append_eq]
    rw [if_neg hc, ih rest hcs]

/-- Splitting inverts joining when every piece is separator-free. -/
theorem splitOnChar_joinChar {sep : Char} : ∀ {ps : List (List Char)}, ps ≠ [] →
    (∀ l ∈ ps, sep ∉ l) → splitOnChar sep (joinChar sep ps) = ps := by
  intro ps
  induction ps with
  | nil => intro h; exact absurd rfl h
  | cons l ps ih =>
    intro _ hall
    cases ps with
    | nil =>
      show splitOnChar sep l = [l]
      exact splitOnChar_sepFree (hall l (List.mem_cons_self l []))
    | cons l2 ps2 =>
      show splitOnChar sep (l ++ sep :: joinChar sep (l2 :: ps2)) = l :: l2 :: ps2
      rw [splitOnChar_append_sep _ (hall l (List.mem_cons_self l _)),
        ih (by simp) (fun x hx => hall x (List.mem_cons_of_mem l hx))]

theorem joinChar_append_nil {sep : Char} : ∀ {ps : List (List Char)}, ps ≠ [] →
    joinChar sep (ps ++ [[]]) = joinChar sep ps ++ [sep] := by
  intro ps
  induction ps with
  | nil => intro h; exact absurd rfl h
  | cons l ps ih =>
    intro _
    cases ps with
    | nil =>
      show l ++ sep :: joinChar sep [[]] = l ++ [sep]
      rfl
    | cons l2 ps2 =>
      show l ++ sep :: joinChar sep ((l2 :: ps2) ++ [[]]) =
        (l ++ sep :: joinChar sep (l2 :: ps2)) ++ [sep]
      rw [ih (by simp)]
      simp

theorem getLast?_cons_of_ne_nil {α : Type} {a : α} {xs : List α} (h : xs ≠ []) :
    (a :: xs).getLast? = xs.getLast? := by
  cases xs with
  | nil => exact absurd rfl h
  | cons x xs => exact List.getLast?_cons_cons

theorem getLast?_append_cons {α : Type} (l : List α) (a : α) (xs : List α) :
    (l ++ a :: xs).getLast? = (a :: xs).getLast? := by
  rw [List.getLast?_append]
  cases hx : (a :: xs).getLast? with
  | none =>
    rw [List.getLast?_eq_none_iff] at hx
    exact (List.cons_ne_nil a xs hx).elim
  | some z => rfl

/-- The last character of a join whose last piece is nonempty is the last
character of that piece. -/
theorem joinChar_getLast_concat {sep : Char} : ∀ {ps : List (List Char)} {lp : List Char},
    lp ≠ [] → (joinChar sep (ps ++ [lp])).getLast? = lp.getLast? := by
  intro ps
  induction ps with
  | nil =>
    intro lp _
    rfl
  | cons l ps ih =>
    intro lp hlp
    cases ps with
    | nil =>
      show (l ++ sep :: joinChar sep [lp]).getLast? = lp.getLast?
      rw [getLast?_append_cons]
      exact getLast?_cons_of_ne_nil hlp
    | cons l2 ps2 =>
      show (l ++ sep :: joinChar sep ((l2 :: ps2) ++ [lp])).getLast? = lp.getLast?
      rw [getLast?_append_cons]
      have hx := ih hlp
      cases hX : joinChar sep ((l2 :: ps2) ++ [lp]) with
      | nil =>
        rw [hX] at hx
        exact absurd (List.getLast?_eq_none_iff.mp hx.symm) hlp
      | cons c cs =>
        rw [hX] at hx
        rw [List.getLast?_cons_cons]
        exact hx

theorem saveContent_eq (lines : List String) :
    saveContent lines =
      if lines.length > 0 &&
          !((joinChar '\n' (lines.map String.data)).getLast? == some '\n')
      then ⟨joinChar '\n' (lines.map String.data) ++ ['\n']⟩
      else ⟨joinChar '\n' (lines.map String.data)⟩ := rfl

theorem scanLines_eq (s : String) :
    scanLines s =
      (if (splitOnChar '\n' s.data).getLast? = some []
       then (splitOnChar '\n' s.data).dropLast
       else splitOnChar '\n' s.data).map (fun l => (⟨dropCR l⟩ : String)) := rfl

/-- Scanning the saved content recovers the line sequence exactly, except
that one trailing empty line of a multi-line sequence is dropped. -/
theorem scanLines_saveContent {lines : List String}
    (hfree : ∀ l ∈ lines, '\n' ∉ l.data ∧ l.data.getLast? ≠ some '\r') :
    scanLines (saveContent lines) = lines ∨
      (lines.getLast? = some "" ∧ scanLines (saveContent lines) = lines.dropLast) := by
  rcases List.eq_nil_or_concat lines with rfl | ⟨init, last, rfl⟩
  · left
    rfl
  · simp only [List.concat_eq_append] at hfree ⊢
    have hmaplast : (init ++ [last]).map String.data = init.map String.data ++ [last.data] := by
      rw [List.map_append]
      rfl
    have hmapne : (init ++ [last]).map String.data ≠ [] := by simp
    have hdropmap : ∀ (l : List String), (∀ s ∈ l, s.data.getLast? ≠ some '\r') →
        l.map ((fun cl => (⟨dropCR cl⟩ : String)) ∘ String.data) = l := by
      intro l hl
      have hcg : ∀ s ∈ l, ((fun cl => (⟨dropCR cl⟩ : String)) ∘ String.data) s = id s := by
        intro s hs
        show (⟨dropCR s.data⟩ : String) = s
        unfold dropCR
        rw [if_neg (hl s hs)]
      rw [List.map_congr_left hcg, List.map_id]
    by_cases hlast : last.data = []
    · have hlast' : last = "" := by
        apply String.ext
        rw [hlast]
      subst hlast'
      cases init with
      | nil =>
        left
        rfl
      | cons i0 irest =>
        have hinitne : (i0 :: irest).map String.data ≠ [] := by simp
        have hjoin : joinChar '\n' (((i0 :: irest) ++ [""]).map String.data) =
            joinChar '\n' ((i0 :: irest).map String.data) ++ ['\n'] := by
          rw [hmaplast]
          exact joinChar_append_nil hinitne
        have hgl : (joinChar '\n' (((i0 :: irest) ++ [""]).map String.data)).getLast? =
            some '\n' := by
          rw [hjoin, List.getLast?_concat]
        have hcondf : (decide (((i0 :: irest) ++ [""]).length > 0) &&
            !((joinChar '\n' (((i0 :: irest) ++ [""]).map String.data)).getLast? ==
              some '\n')) = false := by
          rw [hgl]
          simp
        rw [saveContent_eq, if_neg (by rw [hcondf]; exact Bool.false_ne_true)]
        right
        refine ⟨List.getLast?_concat _, ?_⟩
        rw [scanLines_eq]
        have hs : ((⟨joinChar '\n' (((i0 :: irest) ++ [""]).map String.data)⟩ : String)).data =
            joinChar '\n' (((i0 :: irest) ++ [""]).map String.data) := rfl
        rw [hs]
        have hsplit : splitOnChar '\n' (joinChar '\n' (((i0 :: irest) ++ [""]).map String.data)) =
            ((i0 :: irest) ++ [""]).map String.data := by
          refine splitOnChar_joinChar (by simp) ?_
          intro l hl
          rcases List.mem_append.mp (hmaplast ▸ hl) with hml | hml
          · obtain ⟨s, hsm, rfl⟩ := List.mem_map.mp hml
            exact (hfree s (List.mem_append_left _ hsm)).1
          · have : l = "".data := by simpa using hml
            rw [this]
            simp
        rw [hsplit, hmaplast, if_pos (by rw [List.getLast?_concat]),
          List.dropLast_concat]
        rw [show ((i0 :: irest).map String.data).map (fun l => (⟨dropCR l⟩ : String)) =
          (i0 :: irest).map ((fun cl => (⟨dropCR cl⟩ : String)) ∘ String.data) from
          List.map_map _ _ _]
        rw [hdropmap (i0 :: irest)
          (fun s hs => (hfree s (List.mem_append_left _ hs)).2)]
        rw [List.dropLast_concat]
    · have hjl : (joinChar '\n' (((init ++ [last])).map String.data)).getLast? =
          last.data.getLast? := by
        rw [hmaplast]
        exact joinChar_getLast_concat hlast
      have hglne : last.data.getLast? ≠ some '\n' := by
        intro hgl
        obtain ⟨l', hl'⟩ := List.getLast?_eq_some_iff.mp hgl
        exact (hfree last (List.mem_append_right _ (List.mem_cons_self _ _))).1
          (by rw [hl']; simp)
      have hcond : (decide ((init ++ [last]).length > 0) &&
          !((joinChar '\n' ((init ++ [last]).map String.data)).getLast? == some '\n')) =
          true := by
        rw [Bool.and_eq_true]
        constructor
        · rw [decide_eq_true_eq]
          simp
        · rw [Bool.not_eq_true', beq_eq_false_iff_ne]
          rw [hjl]
          exact hglne
      rw [saveContent_eq, if_pos hcond]
      left
      rw [scanLines_eq]
      have hs : ((⟨joinChar '\n' ((init ++ [last]).map String.data) ++ ['\n']⟩ : String)).data =
          joinChar '\n' ((init ++ [last]).map String.data) ++ ['\n'] := rfl
      rw [hs]
      have hsplit : splitOnChar '\n'
          (joinChar '\n' ((init ++ [last]).map String.data) ++ ['\n']) =
          (init ++ [last]).map String.data ++ [[]] := by
        rw [← joinChar_append_nil hmapne]
        refine splitOnChar_joinChar (by simp) ?_
        intro l hl
        rcases List.mem_append.mp hl with hml | hml
        · obtain ⟨s, hsm, rfl⟩ := List.mem_map.mp hml
          exact (hfree s hsm).1
        · have : l = [] := by simpa using hml
          rw [this]
          simp
      rw [hsplit, if_pos (List.getLast?_concat _), List.dropLast_concat]
      rw [show ((init ++ [last]).map String.data).map (fun l => (⟨dropCR l⟩ : String)) =
        (init ++ [last]).map ((fun cl => (⟨dropCR cl⟩ : String)) ∘ String.data) from
        List.map_map _ _ _]
      exact hdropmap (init ++ [last]) (fun s hs => (hfree s hs).2)

/-- The structural profile of a block: its host pattern together with the
paths and commented flags of its entries, in order. -/
def blockProfile (b : HostBlock) : String × List (String × Bool) :=
  (b.hostname, b.identityFiles.map (fun e => (e.path, e.isCommented)))

/-- The block/entry structure of a configuration that the round-trip claim
compares: host patterns with per-block entry paths, commented flags and
order. -/
def configProfile (c : ConfigFile) : List (String × List (String × Bool)) :=
  c.blocks.map blockProfile

/-- Appending one empty line to the file leaves every parsed block's profile
unchanged under the insertion map. -/
theorem blockProfile_insBlockMap_end {lines' : List String} {blk : HostBlock}
    (hmem : blk ∈ parseBlocks lines') :
    blockProfile (insBlockMap lines'.length (insertL lines' lines'.length "") blk) =
      blockProfile blk := by
  obtain ⟨hlt, hle, hhost, hfree, hlines, hents⟩ := parseBlocks_mem_props hmem
  unfold insBlockMap
  by_cases hep : blk.endLine < lines'.length
  · rw [if_pos hep]
  · rw [if_neg hep]
    by_cases hsp : blk.startLine < lines'.length
    · rw [if_pos hsp]
      have he : blk.endLine = lines'.length := le_antisymm hle (not_lt.mp hep)
      have hnl : insertL lines' lines'.length "" = lines' ++ [""] := by
        unfold insertL
        rw [List.take_length, List.drop_length]
      have hbl : blk.lines = lines'.drop blk.startLine := by
        rw [hlines, he]
        unfold sliceL
        exact List.take_of_length_le (le_of_eq (List.length_drop _ _))
      have hslice : sliceL (insertL lines' lines'.length "") blk.startLine
          (blk.endLine + 1) = blk.lines ++ [""] := by
        rw [hnl, he]
        unfold sliceL
        rw [List.drop_append_eq_append_drop]
        rw [show blk.startLine - lines'.length = 0 from by omega, List.drop_zero]
        rw [List.take_append_eq_append_take]
        rw [List.take_of_length_le (by rw [List.length_drop]; omega)]
        rw [show lines'.length + 1 - blk.startLine - (lines'.drop blk.startLine).length = 1
          from by rw [List.length_drop]; omega]
        rw [hbl]
        rfl
      unfold blockProfile
      show (blk.hostname, (entriesOf (sliceL (insertL lines' lines'.length "")
          blk.startLine (blk.endLine + 1))).map (fun e => (e.path, e.isCommented))) =
        (blk.hostname, blk.identityFiles.map (fun e => (e.path, e.isCommented)))
      rw [hslice, entriesOf_append_none (show identityMatch "" = none from rfl), ← hents]
    · rw [if_neg hsp]
      rfl

/-! ## Claim C6 -/

/-- C6 counterexample: a successful `AddIdentityFile` with a keyPath holding
an embedded newline produces an in-memory line containing `'\n'`; Save joins
lines with newlines, so re-parsing the saved content splits that line and a
new `Host` block appears — the block/entry structure is not reproduced. -/
theorem save_roundtrip_cex :
    (AddIdentityFile none (parseConfig "" "Host h\n") "h" "x\nHost e" true).2 = none ∧
    configProfile (parseConfig ""
        (saveContent (AddIdentityFile none (parseConfig "" "Host h\n") "h"
          "x\nHost e" true).1.lines)) ≠
      configProfile (AddIdentityFile none (parseConfig "" "Host h\n") "h"
        "x\nHost e" true).1 := by
  refine ⟨rfl, ?_⟩
  decide

/-- C6 (amended): for every well-formed configuration whose lines contain no
newline character and do not end in a carriage return, parsing the content
Save writes yields the same block/entry structure — the same host patterns
and the same identity-file paths, commented flags and order — as the
in-memory structure before serialization. -/
theorem save_roundtrip (c : ConfigFile) (hwf : WF c) (pathArg : String)
    (hfree : ∀ l ∈ c.lines, '\n' ∉ l.data ∧ l.data.getLast? ≠ some '\r') :
    configProfile (parseConfig pathArg (saveContent c.lines)) = configProfile c := by
  have hpc : configProfile (parseConfig pathArg (saveContent c.lines)) =
      (parseBlocks (scanLines (saveContent c.lines))).map blockProfile := rfl
  rcases scanLines_saveContent hfree with heq | ⟨hlast, heq⟩
  · rw [hpc, heq]
    show (parseBlocks c.lines).map blockProfile = configProfile c
    unfold configProfile
    rw [hwf]
  · obtain ⟨init, hinit⟩ := List.getLast?_eq_some_iff.mp hlast
    have hdl : c.lines.dropLast = init := by
      rw [hinit, List.dropLast_concat]
    have hlines : c.lines = insertL init init.length "" := by
      rw [hinit]
      unfold insertL
      rw [List.take_length, List.drop_length]
    have hpb : parseBlocks c.lines =
        (parseBlocks init).map (insBlockMap init.length (insertL init init.length "")) := by
      rw [hlines]
      exact parseBlocks_insert le_rfl rfl
    rw [hpc, heq, hdl]
    show (parseBlocks init).map blockProfile = configProfile c
    unfold configProfile
    rw [hwf, hpb, List.map_map]
    refine List.map_congr_left ?_
    intro blk hblk
    exact (blockProfile_insBlockMap_end hblk).symm

/-- Witness for the amended C6 statement: a two-line configuration with one
host block and one entry reproduces its structure after save and re-parse. -/
theorem save_roundtrip_w :
    configProfile (parseConfig ""
        (saveContent (mkConfig ["Host h", "    IdentityFile k"]).lines)) =
      configProfile (mkConfig ["Host h", "    IdentityFile k"]) :=
  save_roundtrip (mkConfig ["Host h", "    IdentityFile k"]) rfl "" (by decide)

theorem addIdentityFile_idempotent_w :
    AddIdentityFile none (AddIdentityFile none (mkConfig ["Host h"]) "h" "k" true).1
        "h" "k" true =
      ((AddIdentityFile none (mkConfig ["Host h"]) "h" "k" true).1, none) :=
  (addIdentityFile_idempotent none (mkConfig ["Host h"]) rfl "h" "k" true (by decide)
    (by decide) (by decide) (by decide)).2

/-! ## Claim C9 -/

/-- Modelled from the spec: the spec's indent rule — scan the block's lines
(excluding the host line) for the first line "whose content differs after
stripping leading whitespace" and reuse its leading whitespace — without the
code's additional requirement that the stripped content be nonempty. -/
def detectIndentSpecGo : List String → String
  | [] => "    "
  | l :: rest =>
    let trimmed : String := ⟨l.data.dropWhile (fun ch => ch = ' ' || ch = '\t')⟩
    if trimmed ≠ l then ⟨indentOf l⟩
    else detectIndentSpecGo rest

/-- Modelled from the spec: the spec's indent detection over a block's lines,
skipping the `Host` line. -/
def detectIndentSpec (lines : List String) : String :=
  detectIndentSpecGo lines.tail

/-- The Boolean line condition actually used by `detectIndent`: the line
content after stripping leading spaces and tabs is nonempty and differs from
the line. -/
def indentCandidate (l : String) : Bool :=
  decide ((⟨l.data.dropWhile (fun ch => ch = ' ' || ch = '\t')⟩ : String) ≠ "") &&
    decide ((⟨l.data.dropWhile (fun ch => ch = ' ' || ch = '\t')⟩ : String) ≠ l)

/-- `detectIndentGo` returns the leading whitespace of the first candidate
line, defaulting to four spaces. -/
theorem detectIndentGo_eq_find : ∀ ls : List String,
    detectIndentGo ls = (match ls.find? indentCandidate with
      | some l => (⟨indentOf l⟩ : String)
      | none => "    ") := by
  intro ls
  induction ls with
  | nil => rfl
  | cons l rest ih =>
    have heq : detectIndentGo (l :: rest) =
        if (⟨l.data.dropWhile (fun ch => ch = ' ' || ch = '\t')⟩ : String) ≠ "" ∧
           (⟨l.data.dropWhile (fun ch => ch = ' ' || ch = '\t')⟩ : String) ≠ l
        then ⟨indentOf l⟩ else detectIndentGo rest := rfl
    rw [heq]
    by_cases hc : (⟨l.data.dropWhile (fun ch => ch = ' ' || ch = '\t')⟩ : String) ≠ "" ∧
        (⟨l.data.dropWhile (fun ch => ch = ' ' || ch = '\t')⟩ : String) ≠ l
    · have hcb : indentCandidate l = true := by
        unfold indentCandidate
        rw [Bool.and_eq_true, decide_eq_true_eq, decide_eq_true_eq]
        exact hc
      rw [if_pos hc, List.find?_cons_of_pos _ hcb]
    · have hcb : indentCandidate l = false := by
        unfold indentCandidate
        rcases not_and_or.mp hc with h | h
        · rw [decide_eq_false h]
          rfl
        · rw [decide_eq_false h, Bool.and_false]
      rw [if_neg hc,
        List.find?_cons_of_neg _ (by rw [hcb]; exact Bool.false_ne_true), ih]

/-- C9 counterexample: on a block whose only non-host line is whitespace-only
(three spaces), the spec's indent rule reuses those three spaces, but
`detectIndent` skips the line (its stripped content is empty) and defaults to
four spaces, so the inserted line differs from the spec's prediction. -/
theorem addIdentityFile_indent_cex :
    (AddIdentityFile none (mkConfig ["Host h", "   "]) "h" "k" true).1.lines =
      ["Host h", "    IdentityFile k", "   "] ∧
    detectIndentSpec ["Host h", "   "] ++ "IdentityFile " ++ "k" =
      ("   IdentityFile k" : String) ∧
    (AddIdentityFile none (mkConfig ["Host h", "   "]) "h" "k" true).1.lines ≠
      ["Host h", "   IdentityFile k", "   "] := by
  exact ⟨by decide, by decide, by decide⟩

/-- C9 (amended): when `AddIdentityFile` inserts, the new line is spliced in
immediately after the block's last entry line (or after the `Host` line for
an entry-free block); the line is the detected indent followed by
`IdentityFile ` or `# IdentityFile ` per the `active` flag and the literal
keyPath; and the detected indent is the leading whitespace of the first block
line (excluding the `Host` line) whose content after stripping leading
whitespace is nonempty **and** differs from the line, defaulting to four
spaces. -/
theorem addIdentityFile_insertion (home : Option String) (c : ConfigFile)
    (hn keyPath : String) (active : Bool) (b : HostBlock)
    (hfb : FindHostBlock c hn = some b)
    (hnomatch : b.identityFiles.any
      (fun ifl => normalizePath home ifl.path == normalizePath home keyPath) = false) :
    (AddIdentityFile home c hn keyPath active).1.lines =
      c.lines.take (addInsertIdx b) ++
        ((if active then detectIndent b.lines ++ "IdentityFile " ++ keyPath
          else detectIndent b.lines ++ "# IdentityFile " ++ keyPath) ::
          c.lines.drop (addInsertIdx b)) ∧
    addInsertIdx b = (match b.identityFiles.getLast? with
      | some lastIF => b.startLine + lastIF.lineIndex + 1
      | none => b.startLine + 1) ∧
    detectIndent b.lines = (match b.lines.tail.find? indentCandidate with
      | some l => (⟨indentOf l⟩ : String)
      | none => "    ") := by
  refine ⟨?_, rfl, detectIndentGo_eq_find b.lines.tail⟩
  rw [@AddIdentityFile_eq_of_insert home c hn keyPath active b hfb hnomatch]
  rfl

/-- Witness for the amended C9 statement: on a block with one existing entry
the new entry is inserted right below it, reusing the four-space indent. -/
theorem addIdentityFile_insertion_w :
    (AddIdentityFile none (mkConfig ["Host h", "    IdentityFile j"]) "h" "k" true).1.lines =
      ["Host h", "    IdentityFile j", "    IdentityFile k"] := by
  have h := addIdentityFile_insertion none (mkConfig ["Host h", "    IdentityFile j"])
    "h" "k" true
    { startLine := 0
      endLine := 2
      hostname := "h"
      lines := ["Host h", "    IdentityFile j"]
      identityFiles :=
        [{ lineIndex := 1, path := "j", isCommented := false, fullLine := "    IdentityFile j" }] }
    (by decide) (by decide)
  rw [h.1]
  rfl

end GhContext
